import Mathlib

/-! Chained hash table with four hash strategies (`src/main.cpp`).

A shallow embedding of `HashTable<int>` from `src/main.cpp` and a verification of the
properties listed for it.

Machine integers.

The C++ type `int` is modelled by `Int` together with the two's-complement wrap-around
`wrapInt` (32 bits) applied at every `+` and `*` computed in `int`; `long long` arithmetic
uses `wrapLL` (64 bits) and `uint64_t` arithmetic is taken modulo `2 ^ 64`.  The C++
operator `%` truncates towards zero and is `Int.tmod`.

Floating point.

A finite `double` is modelled exactly, as a dyadic number `mant * 2 ^ exp`; a product is
rounded to 53 significant bits, ties to even, as IEEE-754 binary64 does.  Exponent
overflow and subnormal numbers are not modelled; they do not arise from `int` keys and
capacities.

Loops.

The loops of the prime finder are modelled with an explicit iteration budget.  The budget
passed by `isPrime` and `findNextPrime` is shown to be large enough for every `int`
argument, so the budget never changes a result.

Construction and random numbers.

The constructor is the function `construct`; the numbers drawn from
`std::uniform_int_distribution` are a parameter of it, and failure of memory allocation is
not modelled.
-/

/-- A finite IEEE-754 binary64 value, `mant * 2 ^ exp`. -/
structure Double where
  mant : Int
  exp : Int
  deriving DecidableEq, Repr

namespace Double

/-- Number of binary digits of `n`, computed by halving at most `fuel` times. -/
def bitLengthAux : Nat → Nat → Nat
  | 0, _ => 0
  | fuel + 1, n => if n = 0 then 0 else bitLengthAux fuel (n / 2) + 1

/-- Number of binary digits of `n`. -/
def bitLength (n : Nat) : Nat := bitLengthAux n n

/-- Rounding of the exact value `mant * 2 ^ exp` to 53 significant bits, to nearest, ties
to even. -/
def round53 (x : Double) : Double :=
  let n := x.mant.natAbs
  if n < 2 ^ 53 then x
  else
    let s := bitLength n - 53
    let q := n / 2 ^ s
    let r := n % 2 ^ s
    let half := 2 ^ (s - 1)
    let q1 := if r > half ∨ (r = half ∧ q % 2 = 1) then q + 1 else q
    ⟨if x.mant < 0 then -(q1 : Int) else (q1 : Int), x.exp + s⟩

/-- Conversion `static_cast<double>(int)`, exact for every `int`. -/
def ofInt (k : Int) : Double := ⟨k, 0⟩

/-- The product of two doubles: the exact product, rounded. -/
def mul (x y : Double) : Double := round53 ⟨x.mant * y.mant, x.exp + y.exp⟩

/-- The function `std::fmod(x, y)`: `x - trunc(x / y) * y`, which is exact. -/
def fmod (x y : Double) : Double :=
  let e := min x.exp y.exp
  ⟨Int.tmod (x.mant * 2 ^ (x.exp - e).toNat) (y.mant * 2 ^ (y.exp - e).toNat), e⟩

/-- Conversion `static_cast<int>(double)`: truncation towards zero. -/
def toInt (x : Double) : Int :=
  if 0 ≤ x.exp then x.mant * 2 ^ x.exp.toNat else Int.tdiv x.mant (2 ^ (-x.exp).toNat)

end Double

/-- The errors thrown by `HashTable`. -/
inductive Error where
  | invalid_argument
  | overflow_error
  | out_of_range
  | length_error
  deriving DecidableEq, Repr

deriving instance DecidableEq for Except

/-- The data members of `HashTable<int>`: the size `m`, the prime `p`, the constant `A`,
the parameters `b` and `c`, and the buckets `table`. -/
structure HashTable where
  m : Int
  p : Int
  A : Double
  b : Int
  c : Int
  table : List (List Int)
  deriving DecidableEq, Repr

namespace HashTable

/-! ## 32-bit and 64-bit machine arithmetic -/

/-- Smallest value of the C++ type `int`. -/
def INT_MIN : Int := -2147483648

/-- Largest value of the C++ type `int` (`<climits>`). -/
def INT_MAX : Int := 2147483647

/-- Two's-complement reduction of an integer into the range of `int`. -/
def wrapInt (x : Int) : Int := (x + 2147483648) % 4294967296 - 2147483648

/-- Two's-complement reduction of an integer into the range of `long long`. -/
def wrapLL (x : Int) : Int :=
  (x + 9223372036854775808) % 18446744073709551616 - 9223372036854775808

/-- Conversion of an integer to `uint64_t` (and to `size_t`): reduction modulo `2 ^ 64`. -/
def toU64 (x : Int) : Nat := (x % 18446744073709551616).toNat

/-- Membership in the range of `int`. -/
def isInt (x : Int) : Prop := INT_MIN ≤ x ∧ x ≤ INT_MAX

/-- Membership in the range of `long long`. -/
def isLL (x : Int) : Prop := -9223372036854775808 ≤ x ∧ x ≤ 9223372036854775807

instance (x : Int) : Decidable (isInt x) := by
  unfold isInt
  infer_instance

/-! ## PrimeFinder: `isPrime` and `findNextPrime` -/

/-- The loop `for (int i = 5; i*i <= num; i += 6)` of `isPrime`, started at `i`.
`none` is returned only when the iteration budget is used up. -/
def isPrimeLoop : Nat → Int → Int → Option Bool
  | 0, _, _ => none
  | fuel + 1, num, i =>
    if wrapInt (i * i) ≤ num then
      if Int.tmod num i = 0 ∨ Int.tmod num (wrapInt (i + 2)) = 0 then some false
      else isPrimeLoop fuel num (wrapInt (i + 6))
    else some true

/-- The function `static bool isPrime(int num)`. -/
def isPrime (num : Int) : Bool :=
  if num ≤ 1 then false
  else if num ≤ 3 then true
  else if Int.tmod num 2 = 0 ∨ Int.tmod num 3 = 0 then false
  else (isPrimeLoop num.toNat num 5).getD true

/-- The loop `while (candidate < INT_MAX)` of `findNextPrime`, started at `candidate`.
`none` is returned only when the iteration budget is used up. -/
def findNextPrimeLoop : Nat → Int → Option (Except Error Int)
  | 0, _ => none
  | fuel + 1, candidate =>
    if candidate < INT_MAX then
      if isPrime candidate then some (.ok candidate)
      else findNextPrimeLoop fuel (wrapInt (candidate + 2))
    else some (.error .overflow_error)

/-- The function `static int findNextPrime(int n)`; the thrown `std::overflow_error` is the error
result. -/
def findNextPrime (n : Int) : Except Error Int :=
  if n ≤ 1 then .ok 2
  else
    let candidate := if Int.tmod n 2 = 0 then wrapInt (n + 1) else n
    (findNextPrimeLoop (INT_MAX - candidate).toNat.succ candidate).getD
      (.error .overflow_error)

/-! ## The four hash strategies -/

/-- The function `int hashDivision(const T& key) const`: `(key % m + m) % m` in `int` arithmetic. -/
def hashDivision (t : HashTable) (key : Int) : Int :=
  Int.tmod (wrapInt (Int.tmod key t.m + t.m)) t.m

/-- The `double` nearest to the literal `0.6180339887`. -/
def goldenA : Double := ⟨5566755282423243, -53⟩

/-- The function `int hashMultiplication(const T& key) const`:
`value = fmod(static_cast<double>(key) * A, 1.0)`, then `static_cast<int>(m * value) % m`. -/
def hashMultiplication (t : HashTable) (key : Int) : Int :=
  let value := Double.fmod (Double.mul (Double.ofInt key) t.A) ⟨1, 0⟩
  Int.tmod (Double.toInt (Double.mul (Double.ofInt t.m) value)) t.m

/-- The call `std::to_string` of a `uint64_t`: the decimal digits, most significant first. -/
def to_string (n : Nat) : List Char := Nat.toDigits 10 n

/-- The `len` lowest decimal digits of `n`, most significant first, with leading zeros:
the reference against which `to_string` and the zero padding are verified. -/
def decDigits : Nat → Nat → List Char
  | 0, _ => []
  | len + 1, n => decDigits len (n / 10) ++ [Nat.digitChar (n % 10)]

/-- The loop `while (str.length() < 5) str = '0' + str`; it runs at most five times. -/
def padLoop : Nat → List Char → List Char
  | 0, str => str
  | fuel + 1, str => if str.length < 5 then padLoop fuel ('0' :: str) else str

/-- The call `str.substr(pos, len)`: throws (`none`) when `pos` is beyond the end, otherwise the
`len` characters from `pos`, or fewer at the end of the string. -/
def substr (str : List Char) (pos len : Nat) : Option (List Char) :=
  if pos > str.length then none else some ((str.drop pos).take len)

/-- The characters that `std::isspace` accepts in the C locale. -/
def isSpace (ch : Char) : Bool :=
  ch.toNat = 32 ∨ (9 ≤ ch.toNat ∧ ch.toNat ≤ 13)

/-- The call `std::stoi(str)`: leading white space is skipped, an optional sign is read, then the
longest run of decimal digits.  It throws (`none`) when there is no digit
(`std::invalid_argument`) or when the value is not an `int` (`std::out_of_range`). -/
def stoi (str : List Char) : Option Int :=
  let s1 := str.dropWhile isSpace
  let neg := s1.head? = some '-'
  let s2 := if s1.head? = some '-' ∨ s1.head? = some '+' then s1.tail else s1
  let ds := s2.takeWhile Char.isDigit
  if ds = [] then none
  else
    let v : Nat := ds.foldl (fun acc ch => 10 * acc + (ch.toNat - 48)) 0
    let r : Int := if neg then -(v : Int) else (v : Int)
    if INT_MIN ≤ r ∧ r ≤ INT_MAX then some r else none

/-- The `try` block of `hashMidSquare`; `none` stands for a thrown exception, which
ends the block at the statement that throws. -/
def hashMidSquareTry (t : HashTable) (key : Int) : Option Int :=
  let square : Nat := (toU64 key * toU64 key) % 18446744073709551616
  let str := padLoop 5 (to_string square)
  let mid : Int := wrapInt ((str.length / 2 : Nat) : Int)
  let start : Int := max 0 (wrapInt (mid - 1))
  let len : Int := min 3 (wrapInt (wrapInt (str.length : Int) - start))
  (substr str (toU64 start) (toU64 len)).bind fun sub =>
    (stoi sub).bind fun mid_val => some (Int.tmod mid_val t.m)

/-- The function `int hashMidSquare(const T& key) const`: the value of the `try` block, and `0` from
the handler `catch (...)` when the block throws. -/
def hashMidSquare (t : HashTable) (key : Int) : Int :=
  (hashMidSquareTry t key).getD 0

/-- The function `int hashUniversal(const T& key) const`: `hash = (b * key + c) % p` in `long long`,
then `(hash % m + m) % m`, converted to `int`. -/
def hashUniversal (t : HashTable) (key : Int) : Int :=
  let hash := Int.tmod (wrapLL (wrapLL (t.b * key) + t.c)) t.p
  wrapInt (Int.tmod (wrapLL (Int.tmod hash t.m + t.m)) t.m)

/-! ## Table operations -/

/-- The function `void addElement(T key, hashFunc)`: the hash strategy is a member function, here a
function of the table and the key.  The result is the outcome of the call (the thrown
`std::out_of_range` is the error) together with the table after the call. -/
def addElement (t : HashTable) (key : Int) (hashFunc : HashTable → Int → Int) :
    Except Error Unit × HashTable :=
  let index := hashFunc t key
  if index < 0 ∨ index ≥ t.m then (.error .out_of_range, t)
  else (.ok (), { t with table := t.table.modify (fun bucket => bucket ++ [key]) index.toNat })

/-- The call `std::find(bucket.begin(), bucket.end(), key)` as a position: the index of the first
element equal to `key`, or the length of the bucket when there is none. -/
def find : List Int → Int → Nat
  | [], _ => 0
  | x :: rest, key => if x = key then 0 else find rest key + 1

/-- The function `bool removeElement(T key, hashFunc)`: the returned flag and the table afterwards. -/
def removeElement (t : HashTable) (key : Int) (hashFunc : HashTable → Int → Int) :
    Bool × HashTable :=
  let index := hashFunc t key
  if index < 0 ∨ index ≥ t.m then (false, t)
  else
    let bucket := t.table.getD index.toNat []
    let it := find bucket key
    if it ≠ bucket.length then
      (true, { t with table := t.table.set index.toNat (bucket.eraseIdx it) })
    else (false, t)

/-- The function `void clear()`. -/
def clear (t : HashTable) : HashTable :=
  { t with table := t.table.map (fun _ => []) }

/-- A table with three buckets filled by division hashing, at which the statements below
are instantiated. -/
def sampleTable : HashTable := ⟨3, 3, goldenA, 1, 0, [[6, 3, 9, 3], [], [5]]⟩

/-! ## Construction -/

/-- The value of `max_size()` of `std::vector<std::vector<int>>` for 24-byte elements and
a 64-bit `ptrdiff_t`.  Every `int` below zero, converted to `size_t`, lies above it. -/
def vector_max_size : Nat := 384307168202282325

/-- The constructor `HashTable(int size) : m(size), table(size)`.  The member initialiser
`table(size)` runs before the body: it converts `size` to `size_t` and throws
`std::length_error` above `max_size()`.  The body then checks `size <= 0`, computes `p`,
and draws `b` and `c`; `draw i lo hi` is the `i`-th number drawn, from
`std::uniform_int_distribution<>(lo, hi)`. -/
def construct (size : Int) (draw : Nat → Int → Int → Int) : Except Error HashTable :=
  if toU64 size > vector_max_size then .error .length_error
  else if size ≤ 0 then .error .invalid_argument
  else
    (findNextPrime size).bind fun p =>
      .ok ⟨size, p, goldenA, draw 0 1 (wrapInt (p - 1)), draw 1 0 (wrapInt (p - 1)),
        List.replicate (toU64 size) []⟩

/-- The contract of `std::uniform_int_distribution<>(lo, hi)`: for `lo ≤ hi` every number
drawn lies in `[lo, hi]`. -/
def drawsInRange (draw : Nat → Int → Int → Int) : Prop :=
  ∀ (i : Nat) (lo hi : Int), lo ≤ hi → lo ≤ draw i lo hi ∧ draw i lo hi ≤ hi

/-! ## Sequences of calls -/

/-- A call of one of the three mutating member functions. -/
inductive Call where
  | add (key : Int)
  | remove (key : Int)
  | clear
  deriving DecidableEq, Repr

/-- The table after one call made with the strategy `hashFunc`; a call of `addElement`
that throws leaves the table as it is. -/
def step (hashFunc : HashTable → Int → Int) (t : HashTable) : Call → HashTable
  | .add key => (addElement t key hashFunc).2
  | .remove key => (removeElement t key hashFunc).2
  | .clear => clear t

/-- The table after a sequence of calls, all made with the strategy `hashFunc`. -/
def run (hashFunc : HashTable → Int → Int) (t : HashTable) (calls : List Call) : HashTable :=
  calls.foldl (step hashFunc) t

/-- The insertion loop of `benchmarkHashFunction`,
`for (const auto& val : data) table.addElement(val, hashFunc)`: the outcome and the table
afterwards.  An exception thrown by `addElement` ends the loop. -/
def insertPass (hashFunc : HashTable → Int → Int) :
    HashTable → List Int → Except Error Unit × HashTable
  | t, [] => (.ok (), t)
  | t, val :: rest =>
    if (addElement t val hashFunc).1 = .ok () then
      insertPass hashFunc (addElement t val hashFunc).2 rest
    else addElement t val hashFunc

/-- The removal loop of `benchmarkHashFunction`,
`for (const auto& val : data) table.removeElement(val, hashFunc)`: the flags returned by
the calls, in order, and the table afterwards. -/
def removePass (hashFunc : HashTable → Int → Int) :
    HashTable → List Int → List Bool × HashTable
  | t, [] => ([], t)
  | t, val :: rest =>
    ((removeElement t val hashFunc).1 ::
        (removePass hashFunc (removeElement t val hashFunc).2 rest).1,
      (removePass hashFunc (removeElement t val hashFunc).2 rest).2)

/-! ## Reference notions for the table properties -/

/-- Two tables agree on the data members other than the buckets. -/
def sameParameters (t u : HashTable) : Prop :=
  t.m = u.m ∧ t.p = u.p ∧ t.A = u.A ∧ t.b = u.b ∧ t.c = u.c

/-- A strategy that reads the data members `m`, `p`, `A`, `b`, `c` only, as the four hash
functions of the class do. -/
def readsParameters (hashFunc : HashTable → Int → Int) : Prop :=
  ∀ (t u : HashTable) (key : Int), sameParameters t u → hashFunc t key = hashFunc u key

/-- The buckets that hold the keys `keys`, each key in the bucket given by `index`, in
the order of the list. -/
def bucketsOf (index : Int → Int) (count : Nat) (keys : List Int) : List (List Int) :=
  (List.range count).map fun (i : Nat) => keys.filter fun key => index key = (i : Int)

/-- The bucket-consistency invariant: the table has `m` buckets, and every key stored in
bucket `i` has the index `i` under the strategy. -/
def consistent (hashFunc : HashTable → Int → Int) (t : HashTable) : Prop :=
  t.table.length = t.m.toNat ∧
  ∀ (i : Nat) (bucket : List Int), t.table[i]? = some bucket →
    ∀ key ∈ bucket, hashFunc t key = (i : Int)

/-! ## Machine arithmetic and primality: auxiliary facts -/

theorem wrapInt_eq {x : Int} (h : isInt x) : wrapInt x = x := by
  unfold wrapInt
  unfold isInt INT_MIN INT_MAX at h
  omega

theorem tmod_eq_zero_iff_dvd {a b : Int} (ha : 0 ≤ a) (hb : 0 ≤ b) :
    Int.tmod a b = 0 ↔ b ∣ a := by
  rw [Int.tmod_eq_emod ha hb]
  exact Int.dvd_iff_emod_eq_zero.symm

theorem not_prime_of_dvd {num d : Int} (h1 : 1 < d) (h2 : d < num) (hd : d ∣ num) :
    ¬ Nat.Prime num.toNat := by
  intro hp
  have hdn : d.toNat ∣ num.toNat := by
    have : ((d.toNat : Nat) : Int) ∣ ((num.toNat : Nat) : Int) := by
      rw [Int.toNat_of_nonneg (by omega), Int.toNat_of_nonneg (by omega)]
      exact hd
    exact Int.natCast_dvd_natCast.mp this
  rcases (Nat.dvd_prime hp).mp hdn with h | h
  · omega
  · omega

theorem prime_of_no_small_divisor {num i : Int} (h1 : 1 < num) (hi0 : 0 ≤ i)
    (hi : num < i * i) (hnd : ∀ d : Int, 2 ≤ d → d < i → ¬ d ∣ num) :
    Nat.Prime num.toNat := by
  rw [Nat.prime_def_le_sqrt]
  refine ⟨by omega, ?_⟩
  intro k hk2 hks hkd
  have hkk : k * k ≤ num.toNat := Nat.le_sqrt.mp hks
  have hkki : (k : Int) * k ≤ num := by
    have : ((k * k : Nat) : Int) ≤ ((num.toNat : Nat) : Int) := by exact_mod_cast hkk
    rw [Int.toNat_of_nonneg (by omega)] at this
    push_cast at this
    exact this
  have hlt : (k : Int) < i := by
    by_contra hge
    have hge2 : i ≤ (k : Int) := by omega
    have : i * i ≤ (k : Int) * k := mul_self_le_mul_self hi0 hge2
    omega
  apply hnd (k : Int) (by omega) hlt
  have : ((k : Nat) : Int) ∣ ((num.toNat : Nat) : Int) := Int.natCast_dvd_natCast.mpr hkd
  rw [Int.toNat_of_nonneg (by omega)] at this
  exact this


/-- Below `46337 ^ 2` the trial-division loop decides primality, provided every smaller
candidate divisor has been excluded and the budget covers the remaining distance. -/
theorem isPrimeLoop_spec (num : Int) (h3 : 3 < num) (hB : num < 2147117569) :
    ∀ (fuel : Nat) (i : Int), 5 ≤ i → i % 6 = 5 → i ≤ 46337 → i ≤ num → num < i + fuel →
      (∀ d : Int, 2 ≤ d → d < i → ¬ d ∣ num) →
      isPrimeLoop fuel num i = some (decide (Nat.Prime num.toNat)) := by
  intro fuel
  induction fuel with
  | zero => intro i _ _ _ h1 h2 _; omega
  | succ fuel ih =>
    intro i h5 hmod hub hle hfuel hnd
    have hii : isInt (i * i) := by
      unfold isInt INT_MIN INT_MAX
      constructor
      · nlinarith
      · have : i * i ≤ 46337 * 46337 := mul_self_le_mul_self (by omega) hub
        omega
    have hi2 : isInt (i + 2) := by unfold isInt INT_MIN INT_MAX; omega
    have hi6 : isInt (i + 6) := by unfold isInt INT_MIN INT_MAX; omega
    unfold isPrimeLoop
    rw [wrapInt_eq hii, wrapInt_eq hi2, wrapInt_eq hi6]
    by_cases hsq : i * i ≤ num
    · rw [if_pos hsq]
      have hlt : i + 20 ≤ num := by nlinarith
      by_cases hdiv : Int.tmod num i = 0 ∨ Int.tmod num (i + 2) = 0
      · rw [if_pos hdiv]
        have hnp : ¬ Nat.Prime num.toNat := by
          rcases hdiv with h | h
          · exact not_prime_of_dvd (by omega) (by omega)
              ((tmod_eq_zero_iff_dvd (by omega) (by omega)).mp h)
          · exact not_prime_of_dvd (by omega) (by omega)
              ((tmod_eq_zero_iff_dvd (by omega) (by omega)).mp h)
        simp [hnp]
      · rw [if_neg hdiv]
        have hdi : ¬ i ∣ num := fun h =>
          hdiv (Or.inl ((tmod_eq_zero_iff_dvd (by omega) (by omega)).mpr h))
        have hdi2 : ¬ (i + 2) ∣ num := fun h =>
          hdiv (Or.inr ((tmod_eq_zero_iff_dvd (by omega) (by omega)).mpr h))
        have h2 : ¬ (2 : Int) ∣ num := hnd 2 (by omega) (by omega)
        have h3 : ¬ (3 : Int) ∣ num := hnd 3 (by omega) (by omega)
        have hlt46 : i < 46337 := by
          by_contra hge
          have : i = 46337 := by omega
          subst this
          omega
        apply ih (i + 6) (by omega) (by omega) (by omega) (by omega) (by omega)
        intro d hd2 hdlt hdd
        by_cases hdi' : d < i
        · exact hnd d hd2 hdi' hdd
        · have hcases : d = i ∨ d = i + 1 ∨ d = i + 2 ∨ d = i + 3 ∨ d = i + 4 ∨ d = i + 5 := by
            omega
          rcases hcases with h | h | h | h | h | h
          · exact hdi (h ▸ hdd)
          · exact h2 (dvd_trans (by omega) hdd)
          · exact hdi2 (h ▸ hdd)
          · exact h2 (dvd_trans (by omega) hdd)
          · exact h3 (dvd_trans (by omega) hdd)
          · exact h2 (dvd_trans (by omega) hdd)
    · rw [if_neg hsq]
      have hp : Nat.Prime num.toNat :=
        prime_of_no_small_divisor (by omega) (by omega) (by omega) hnd
      simp [hp]

/-- For `int` arguments below `46337 ^ 2 = 2147117569` the function `isPrime` decides
primality. -/
theorem isPrime_spec (num : Int) (hB : num < 2147117569) :
    isPrime num = decide (Nat.Prime num.toNat) := by
  unfold isPrime
  by_cases h1 : num ≤ 1
  · rw [if_pos h1]
    have : ¬ Nat.Prime num.toNat := by
      intro hp
      have := hp.two_le
      omega
    simp [this]
  · rw [if_neg h1]
    by_cases h3 : num ≤ 3
    · rw [if_pos h3]
      have h23 : num = 2 ∨ num = 3 := by omega
      rcases h23 with h | h <;> subst h <;> decide
    · rw [if_neg h3]
      by_cases hdiv : Int.tmod num 2 = 0 ∨ Int.tmod num 3 = 0
      · rw [if_pos hdiv]
        have hnp : ¬ Nat.Prime num.toNat := by
          rcases hdiv with h | h
          · exact not_prime_of_dvd (by omega) (by omega)
              ((tmod_eq_zero_iff_dvd (by omega) (by omega)).mp h)
          · exact not_prime_of_dvd (by omega) (by omega)
              ((tmod_eq_zero_iff_dvd (by omega) (by omega)).mp h)
        simp [hnp]
      · rw [if_neg hdiv]
        have hd2 : ¬ (2 : Int) ∣ num := fun h =>
          hdiv (Or.inl ((tmod_eq_zero_iff_dvd (by omega) (by omega)).mpr h))
        have hd3 : ¬ (3 : Int) ∣ num := fun h =>
          hdiv (Or.inr ((tmod_eq_zero_iff_dvd (by omega) (by omega)).mpr h))
        rw [isPrimeLoop_spec num (by omega) hB num.toNat 5 (by omega) (by omega) (by omega)
          (by omega) (by omega)]
        · rfl
        · intro d hd2' hd5 hdd
          have hcases : d = 2 ∨ d = 3 ∨ d = 4 := by omega
          rcases hcases with h | h | h
          · exact hd2 (h ▸ hdd)
          · exact hd3 (h ▸ hdd)
          · exact hd2 (dvd_trans (by omega) hdd)


/-- The iteration budget `num` given by `isPrime` is never used up: for every `int`
argument that reaches the loop, the loop returns a verdict. -/
theorem isPrimeLoop_isSome (num : Int) (hnum : isInt num) (h2 : ¬ (2 : Int) ∣ num)
    (h3 : ¬ (3 : Int) ∣ num) :
    ∀ (fuel : Nat) (i : Int), 5 ≤ i → i % 6 = 5 → i ≤ num → num < i + fuel →
      (isPrimeLoop fuel num i).isSome = true := by
  unfold isInt INT_MIN INT_MAX at hnum
  intro fuel
  induction fuel with
  | zero => intro i _ _ h1 h2; omega
  | succ fuel ih =>
    intro i h5 hmod hle hfuel
    have hi2 : isInt (i + 2) := by unfold isInt INT_MIN INT_MAX; omega
    unfold isPrimeLoop
    rw [wrapInt_eq hi2]
    by_cases hsq : wrapInt (i * i) ≤ num
    · rw [if_pos hsq]
      by_cases hdiv : Int.tmod num i = 0 ∨ Int.tmod num (i + 2) = 0
      · rw [if_pos hdiv]; rfl
      · rw [if_neg hdiv]
        have hne : i ≠ num := by
          intro h
          apply hdiv
          left
          rw [h]
          exact Int.tmod_self
        have hne2 : i + 2 ≠ num := by
          intro h
          apply hdiv
          right
          rw [h]
          exact Int.tmod_self
        have hi6 : isInt (i + 6) := by unfold isInt INT_MIN INT_MAX; omega
        rw [wrapInt_eq hi6]
        exact ih (i + 6) (by omega) (by omega) (by omega) (by omega)
    · rw [if_neg hsq]; rfl

/-- The loop of `findNextPrime`, started at an odd candidate that has a prime below
`46337 ^ 2` at or above it, returns the smallest prime at or above the candidate. -/
theorem findNextPrimeLoop_spec (Q : Int) (hQ : Nat.Prime Q.toNat) (hB : Q < 2147117569) :
    ∀ (fuel : Nat) (c : Int), 3 ≤ c → c % 2 = 1 → c ≤ Q → INT_MAX - c < fuel →
      ∃ r : Int, findNextPrimeLoop fuel c = some (.ok r) ∧ c ≤ r ∧ r ≤ Q ∧
        Nat.Prime r.toNat ∧ ∀ q : Int, c ≤ q → q < r → ¬ Nat.Prime q.toNat := by
  intro fuel
  induction fuel with
  | zero => intro c _ _ h1 h2; unfold INT_MAX at h2; omega
  | succ fuel ih =>
    intro c h3 hodd hle hfuel
    unfold INT_MAX at hfuel
    unfold findNextPrimeLoop
    have hlt : c < INT_MAX := by unfold INT_MAX; omega
    rw [if_pos hlt, isPrime_spec c (by omega)]
    by_cases hp : Nat.Prime c.toNat
    · refine ⟨c, by simp [hp], le_refl c, hle, hp, ?_⟩
      intro q h1 h2
      omega
    · have hcQ : c ≠ Q := fun h => hp (h ▸ hQ)
      have hnp1 : ¬ Nat.Prime (c + 1).toNat :=
        not_prime_of_dvd (d := 2) (by omega) (by omega) (by omega)
      have hc1Q : c + 1 ≠ Q := fun h => hnp1 (h ▸ hQ)
      have hc2 : isInt (c + 2) := by unfold isInt INT_MIN INT_MAX; omega
      rw [wrapInt_eq hc2]
      obtain ⟨r, hr, hcr, hrQ, hrp, hmin⟩ :=
        ih (c + 2) (by omega) (by omega) (by omega) (by unfold INT_MAX; omega)
      refine ⟨r, by simp [hp, hr], by omega, hrQ, hrp, ?_⟩
      intro q h1 h2
      by_cases hq : q = c
      · rw [hq]; exact hp
      · by_cases hq1 : q = c + 1
        · rw [hq1]; exact hnp1
        · exact hmin q (by omega) h2

/-- Whenever a prime `Q < 46337 ^ 2` lies at or above `n ≥ 3`, `findNextPrime n` returns
the smallest prime at or above `n`. -/
theorem findNextPrime_of_prime_above (Q : Int) (hQ : Nat.Prime Q.toNat)
    (hB : Q < 2147117569) (n : Int) (h3 : 3 ≤ n) (hle : n ≤ Q) :
    ∃ r : Int, findNextPrime n = .ok r ∧ n ≤ r ∧ r ≤ Q ∧
      Nat.Prime r.toNat ∧ ∀ q : Int, n ≤ q → q < r → ¬ Nat.Prime q.toNat := by
  unfold findNextPrime
  rw [if_neg (by omega)]
  by_cases hev : Int.tmod n 2 = 0
  · have hdvd : (2 : Int) ∣ n := (tmod_eq_zero_iff_dvd (by omega) (by omega)).mp hev
    have hnp : ¬ Nat.Prime n.toNat := not_prime_of_dvd (d := 2) (by omega) (by omega) hdvd
    have hnQ : n ≠ Q := fun h => hnp (h ▸ hQ)
    have hn1 : isInt (n + 1) := by unfold isInt INT_MIN INT_MAX; omega
    simp only [if_pos hev, wrapInt_eq hn1]
    obtain ⟨r, hr, hcr, hrQ, hrp, hmin⟩ :=
      findNextPrimeLoop_spec Q hQ hB (INT_MAX - (n + 1)).toNat.succ (n + 1) (by omega)
        (by omega) (by omega) (by unfold INT_MAX; omega)
    refine ⟨r, by rw [hr]; rfl, by omega, hrQ, hrp, ?_⟩
    intro q h1 h2
    by_cases hq : q = n
    · rw [hq]; exact hnp
    · exact hmin q (by omega) h2
  · have hodd : n % 2 = 1 := by
      rw [Int.tmod_eq_emod (by omega) (by omega)] at hev
      omega
    simp only [if_neg hev]
    obtain ⟨r, hr, hcr, hrQ, hrp, hmin⟩ :=
      findNextPrimeLoop_spec Q hQ hB (INT_MAX - n).toNat.succ n h3 hodd hle
        (by unfold INT_MAX; omega)
    exact ⟨r, by rw [hr]; rfl, hcr, hrQ, hrp, hmin⟩

/-- The number `2147117563`, the largest prime below `46337 ^ 2`, is prime. -/
theorem prime_2147117563 : Nat.Prime (2147117563 : Int).toNat := by
  have h : isPrime 2147117563 = true := by decide!
  rw [isPrime_spec 2147117563 (by omega)] at h
  exact of_decide_eq_true h


/-- The iteration budget given by `isPrime` suffices for every `int` argument that reaches
the loop. -/
theorem isPrime_budget (num : Int) (hnum : isInt num) (h3 : 3 < num)
    (hdiv : ¬ (Int.tmod num 2 = 0 ∨ Int.tmod num 3 = 0)) :
    (isPrimeLoop num.toNat num 5).isSome = true := by
  have hd2 : ¬ (2 : Int) ∣ num := fun h =>
    hdiv (Or.inl ((tmod_eq_zero_iff_dvd (by omega) (by omega)).mpr h))
  have hd3 : ¬ (3 : Int) ∣ num := fun h =>
    hdiv (Or.inr ((tmod_eq_zero_iff_dvd (by omega) (by omega)).mpr h))
  exact isPrimeLoop_isSome num hnum hd2 hd3 num.toNat 5 (by omega) (by omega) (by omega)
    (by omega)

/-- From an odd `int` candidate the loop of `findNextPrime` finishes within the budget,
and a returned value lies at or above the candidate and below `INT_MAX`. -/
theorem findNextPrimeLoop_bounds :
    ∀ (fuel : Nat) (c : Int), isInt c → c % 2 = 1 → INT_MAX - c < fuel →
      (findNextPrimeLoop fuel c).isSome = true ∧
      ∀ r : Int, findNextPrimeLoop fuel c = some (.ok r) → c ≤ r ∧ r < INT_MAX := by
  intro fuel
  induction fuel with
  | zero => intro c hc _ h; unfold isInt INT_MIN INT_MAX at hc; unfold INT_MAX at h; omega
  | succ fuel ih =>
    intro c hc hodd hfuel
    unfold isInt INT_MIN INT_MAX at hc
    unfold INT_MAX at hfuel
    unfold findNextPrimeLoop
    by_cases hlt : c < INT_MAX
    · rw [if_pos hlt]
      by_cases hp : isPrime c = true
      · rw [if_pos hp]
        refine ⟨rfl, ?_⟩
        intro r hr
        have : c = r := by
          injection hr with hr
          injection hr
        omega
      · rw [if_neg hp]
        unfold INT_MAX at hlt
        have hc2 : isInt (c + 2) := by unfold isInt INT_MIN INT_MAX; omega
        rw [wrapInt_eq hc2]
        obtain ⟨h1, h2⟩ := ih (c + 2) hc2 (by omega) (by unfold INT_MAX; omega)
        refine ⟨h1, ?_⟩
        intro r hr
        have := h2 r hr
        omega
    · rw [if_neg hlt]
      refine ⟨rfl, ?_⟩
      intro r hr
      injection hr with hr
      injection hr

/-- The candidate from which `findNextPrime n` starts its search is an odd `int`. -/
theorem candidate_odd (n : Int) (hn : isInt n) (h1 : 1 < n) :
    isInt (if Int.tmod n 2 = 0 then wrapInt (n + 1) else n) ∧
    (if Int.tmod n 2 = 0 then wrapInt (n + 1) else n) % 2 = 1 ∧
    n ≤ (if Int.tmod n 2 = 0 then wrapInt (n + 1) else n) := by
  unfold isInt INT_MIN INT_MAX at hn
  by_cases hev : Int.tmod n 2 = 0
  · rw [if_pos hev]
    rw [Int.tmod_eq_emod (by omega) (by omega)] at hev
    have hn1 : isInt (n + 1) := by unfold isInt INT_MIN INT_MAX; omega
    rw [wrapInt_eq hn1]
    exact ⟨hn1, by omega, by omega⟩
  · rw [if_neg hev]
    rw [Int.tmod_eq_emod (by omega) (by omega)] at hev
    exact ⟨by unfold isInt INT_MIN INT_MAX; omega, by omega, le_refl n⟩

/-- The iteration budget given by `findNextPrime` suffices for every `int` argument. -/
theorem findNextPrime_budget (n : Int) (hn : isInt n) (h1 : 1 < n) :
    (findNextPrimeLoop
      (INT_MAX - (if Int.tmod n 2 = 0 then wrapInt (n + 1) else n)).toNat.succ
      (if Int.tmod n 2 = 0 then wrapInt (n + 1) else n)).isSome = true := by
  obtain ⟨hc, hodd, _⟩ := candidate_odd n hn h1
  exact (findNextPrimeLoop_bounds _ _ hc hodd (by
    unfold isInt INT_MIN INT_MAX at hc
    unfold INT_MAX
    omega)).1

/-- A value returned by `findNextPrime` is at least `2`, at least the argument, and an
`int` below `INT_MAX`. -/
theorem findNextPrime_ok_bounds (n r : Int) (hn : isInt n) (h : findNextPrime n = .ok r) :
    n ≤ r ∧ 2 ≤ r ∧ r < INT_MAX := by
  unfold findNextPrime at h
  by_cases h1 : n ≤ 1
  · rw [if_pos h1] at h
    have : (2 : Int) = r := by injection h
    unfold INT_MAX
    omega
  · rw [if_neg h1] at h
    obtain ⟨hc, hodd, hle⟩ := candidate_odd n hn (by omega)
    obtain ⟨hsome, hb⟩ := findNextPrimeLoop_bounds
      (INT_MAX - (if Int.tmod n 2 = 0 then wrapInt (n + 1) else n)).toNat.succ
      (if Int.tmod n 2 = 0 then wrapInt (n + 1) else n) hc hodd (by
        unfold isInt INT_MIN INT_MAX at hc
        unfold INT_MAX
        omega)
    simp only at h
    obtain ⟨v, hv⟩ := Option.isSome_iff_exists.mp hsome
    rw [hv, Option.getD_some] at h
    rw [h] at hv
    have := hb r hv
    omega

/-! ## C1, C2: `findNextPrime` -/

/-- C1, as stated, fails on the code: `findNextPrime 2` is `3` although `2` is a prime
at or above `2`, and `findNextPrime INT_MAX` throws instead of returning a prime. -/
theorem findNextPrime_two_and_max :
    findNextPrime 2 = .ok 3 ∧ Nat.Prime (2 : Int).toNat ∧ (2 : Int) < 3 ∧
    isInt 2147483647 ∧ findNextPrime 2147483647 = .error .overflow_error := by
  refine ⟨by decide, ?_, by decide, by decide, by rfl⟩
  exact Nat.prime_two

/-- C1 (amended): for every `n ≤ 1` and every `n` with `3 ≤ n ≤ 2147117563`,
`findNextPrime n` returns the smallest prime `r ≥ n`: `r` is prime, `n ≤ r`, and no prime
lies in `[n, r)`.  In particular the result is `n` when `n` is prime and `2` when
`n ≤ 1`. -/
theorem findNextPrime_smallest_prime (n : Int) (hn : n ≤ 1 ∨ (3 ≤ n ∧ n ≤ 2147117563)) :
    ∃ r : Int, findNextPrime n = .ok r ∧ Nat.Prime r.toNat ∧ n ≤ r ∧
      (∀ q : Int, n ≤ q → q < r → ¬ Nat.Prime q.toNat) ∧
      (Nat.Prime n.toNat → r = n) ∧ (n ≤ 1 → r = 2) := by
  rcases hn with h1 | ⟨h3, hB⟩
  · refine ⟨2, ?_, Nat.prime_two, by omega, ?_, ?_, fun _ => rfl⟩
    · unfold findNextPrime
      rw [if_pos h1]
    · intro q _ hq2 hp
      have := hp.two_le
      omega
    · intro hp
      have := hp.two_le
      omega
  · obtain ⟨r, hr, hnr, _, hrp, hmin⟩ :=
      findNextPrime_of_prime_above 2147117563 prime_2147117563 (by omega) n h3 hB
    refine ⟨r, hr, hrp, hnr, hmin, ?_, fun h => by omega⟩
    intro hp
    by_contra hne
    exact hmin n (le_refl n) (by omega) hp

/-- C1 (amended) at `n = 8`. -/
theorem findNextPrime_smallest_prime_witness :
    ((8 : Int) ≤ 1 ∨ ((3 : Int) ≤ 8 ∧ (8 : Int) ≤ 2147117563)) ∧
    ∃ r : Int, findNextPrime 8 = .ok r ∧ Nat.Prime r.toNat ∧ 8 ≤ r ∧
      (∀ q : Int, 8 ≤ q → q < r → ¬ Nat.Prime q.toNat) ∧
      (Nat.Prime (8 : Int).toNat → r = 8) ∧ ((8 : Int) ≤ 1 → r = 2) :=
  ⟨by decide, findNextPrime_smallest_prime 8 (by decide)⟩

/-- C2, as stated, fails on the code: `INT_MAX` is an `int` greater than `1` for which
`findNextPrime` returns no value. -/
theorem findNextPrime_max_throws :
    isInt 2147483647 ∧ (1 : Int) < 2147483647 ∧
    ¬ ∃ r : Int, findNextPrime 2147483647 = .ok r := by
  refine ⟨by decide, by decide, ?_⟩
  rintro ⟨r, hr⟩
  have h : findNextPrime 2147483647 = .error .overflow_error := by rfl
  rw [h] at hr
  injection hr

/-- C2 (amended): for every `n` with `1 < n ≤ 2147117563`, `findNextPrime n` returns a
value `r` that is a prime number with `r ≥ n`. -/
theorem findNextPrime_prime_ge (n : Int) (h1 : 1 < n) (hB : n ≤ 2147117563) :
    ∃ r : Int, findNextPrime n = .ok r ∧ Nat.Prime r.toNat ∧ n ≤ r := by
  by_cases h2 : n = 2
  · subst h2
    exact ⟨3, by decide, Nat.prime_three, by omega⟩
  · obtain ⟨r, hr, hnr, _, hrp, _⟩ :=
      findNextPrime_of_prime_above 2147117563 prime_2147117563 (by omega) n (by omega) hB
    exact ⟨r, hr, hrp, hnr⟩

/-- C2 (amended) at `n = 90`. -/
theorem findNextPrime_prime_ge_witness :
    (1 : Int) < 90 ∧ (90 : Int) ≤ 2147117563 ∧
    ∃ r : Int, findNextPrime 90 = .ok r ∧ Nat.Prime r.toNat ∧ 90 ≤ r :=
  ⟨by decide, by decide, findNextPrime_prime_ge 90 (by decide) (by decide)⟩


/-! ## Truncated remainder -/

/-- The truncated remainder by a positive modulus: its size, its sign, and its residue. -/
theorem tmod_facts (a m : Int) (hm : 0 < m) :
    -m < Int.tmod a m ∧ Int.tmod a m < m ∧ (0 ≤ a → 0 ≤ Int.tmod a m) ∧
    (a ≤ 0 → Int.tmod a m ≤ 0) ∧ Int.tmod a m % m = a % m := by
  have hres : Int.tmod a m % m = a % m := by
    have h := Int.tmod_add_tdiv a m
    conv_rhs => rw [← h]
    rw [Int.add_mul_emod_self_left]
  refine ⟨?_, Int.tmod_lt_of_pos a hm, fun h => Int.tmod_nonneg m h, ?_, hres⟩
  · rcases le_or_lt 0 a with h | h
    · have := Int.tmod_nonneg m h
      omega
    · obtain ⟨n, rfl⟩ := Int.eq_negSucc_of_lt_zero h
      obtain ⟨k, rfl⟩ := Int.eq_ofNat_of_zero_le (le_of_lt hm)
      have hk : 0 < k := by omega
      have e : Int.tmod (Int.negSucc n) (k : Int) = -(((n + 1) % k : Nat) : Int) := rfl
      have := Nat.mod_lt (n + 1) hk
      rw [e]
      omega
  · intro h
    rcases eq_or_lt_of_le h with h0 | h
    · rw [h0]; simp
    · obtain ⟨n, rfl⟩ := Int.eq_negSucc_of_lt_zero h
      obtain ⟨k, rfl⟩ := Int.eq_ofNat_of_zero_le (le_of_lt hm)
      have e : Int.tmod (Int.negSucc n) (k : Int) = -(((n + 1) % k : Nat) : Int) := rfl
      rw [e]
      omega

/-- The idiom `(x % m + m) % m`, computed without overflow, is the Euclidean remainder. -/
theorem tmod_add_tmod_eq_emod (x m : Int) (hm : 0 < m) :
    Int.tmod (Int.tmod x m + m) m = x % m := by
  obtain ⟨h1, h2, _, _, h5⟩ := tmod_facts x m hm
  rw [Int.tmod_eq_emod (by omega) (by omega), Int.add_emod_self, h5]

/-! ## Division hashing -/

/-- For a capacity `0 < m ≤ 2 ^ 30` the sum `key % m + m` fits in `int`, and
`hashDivision` is the Euclidean remainder of the key modulo `m`. -/
theorem hashDivision_eq_emod (t : HashTable) (key : Int) (hm : 0 < t.m)
    (hB : t.m ≤ 1073741824) : hashDivision t key = key % t.m := by
  unfold hashDivision
  obtain ⟨h1, h2, _, _, _⟩ := tmod_facts key t.m hm
  have hw : isInt (Int.tmod key t.m + t.m) := by unfold isInt INT_MIN INT_MAX; omega
  rw [wrapInt_eq hw]
  exact tmod_add_tmod_eq_emod key t.m hm

/-- For a capacity `0 < m ≤ 2 ^ 30`, `hashDivision` returns an index in `[0, m)`, and it
is the identity on `{0, ..., m-1}`. -/
theorem hashDivision_range (t : HashTable) (key : Int) (hm : 0 < t.m)
    (hB : t.m ≤ 1073741824) :
    0 ≤ hashDivision t key ∧ hashDivision t key < t.m ∧
    (0 ≤ key → key < t.m → hashDivision t key = key) := by
  rw [hashDivision_eq_emod t key hm hB]
  exact ⟨Int.emod_nonneg key (by omega), Int.emod_lt_of_pos key hm,
    fun h0 h1 => Int.emod_eq_of_lt h0 h1⟩

/-! ## C3: `hashDivision` -/

/-- C3 fails on the code for capacities above `2 ^ 30`: with `m = 1073741825` and
`key = 1073741824` the sum `key % m + m = 2147483649` overflows `int`, and the result is
the negative number `-1073741822`, not the Euclidean remainder `1073741824`. -/
theorem hashDivision_overflow :
    hashDivision ⟨1073741825, 1073741827, goldenA, 1, 0, List.replicate 1073741825 []⟩
      1073741824 = -1073741822 ∧
    (1073741824 : Int) % 1073741825 = 1073741824 ∧ isInt 1073741825 ∧ isInt 1073741824 := by
  decide


/-! ## Universal hashing -/

theorem wrapLL_eq {x : Int} (h : isLL x) : wrapLL x = x := by
  unfold wrapLL
  unfold isLL at h
  omega

/-- The product of an `int` key with a parameter `b` in `[1, p-1]`, `p` an `int`, and the
sum with `c` in `[0, p-1]`, fit in `long long`. -/
theorem universal_intermediate (b c p key : Int) (hk : isInt key) (hp : isInt p)
    (hb : 1 ≤ b ∧ b ≤ p - 1) (hc : 0 ≤ c ∧ c ≤ p - 1) :
    isLL (b * key) ∧ isLL (b * key + c) := by
  unfold isInt INT_MIN INT_MAX at hk hp
  unfold isLL
  obtain ⟨hk1, hk2⟩ := hk
  obtain ⟨hp1, hp2⟩ := hp
  obtain ⟨hb1, hb2⟩ := hb
  obtain ⟨hc1, hc2⟩ := hc
  have h1 : b * key ≤ 2147483647 * 2147483647 := by
    have : b * key ≤ b * 2147483647 := mul_le_mul_of_nonneg_left hk2 (by omega)
    have : b * 2147483647 ≤ 2147483647 * 2147483647 := by omega
    omega
  have h2 : -(2147483647 * 2147483648) ≤ b * key := by
    have : b * (-2147483648) ≤ b * key := mul_le_mul_of_nonneg_left hk1 (by omega)
    have : -(2147483647 * 2147483648) ≤ b * (-2147483648) := by omega
    omega
  refine ⟨⟨by omega, by omega⟩, ⟨by omega, by omega⟩⟩

/-- With an `int` prime `p ≥ m > 0` and parameters in range, `hashUniversal` is the
Euclidean remainder modulo `m` of the truncated remainder `(b * key + c) % p`. -/
theorem hashUniversal_eq (t : HashTable) (key : Int) (hk : isInt key) (hm : 0 < t.m)
    (hmp : t.m ≤ t.p) (hp : isInt t.p) (hb : 1 ≤ t.b ∧ t.b ≤ t.p - 1)
    (hc : 0 ≤ t.c ∧ t.c ≤ t.p - 1) :
    hashUniversal t key = Int.tmod (t.b * key + t.c) t.p % t.m := by
  obtain ⟨h1, h2⟩ := universal_intermediate t.b t.c t.p key hk hp hb hc
  unfold hashUniversal
  simp only
  rw [wrapLL_eq h1, wrapLL_eq h2]
  obtain ⟨a1, a2, _, _, _⟩ := tmod_facts (t.b * key + t.c) t.p (by omega)
  obtain ⟨b1, b2, _, _, _⟩ := tmod_facts (Int.tmod (t.b * key + t.c) t.p) t.m hm
  unfold isInt INT_MIN INT_MAX at hp
  have hw : isLL (Int.tmod (Int.tmod (t.b * key + t.c) t.p) t.m + t.m) := by
    unfold isLL; omega
  rw [wrapLL_eq hw, tmod_add_tmod_eq_emod _ t.m hm]
  have e1 := Int.emod_nonneg (Int.tmod (t.b * key + t.c) t.p) (by omega : t.m ≠ 0)
  have e2 := Int.emod_lt_of_pos (Int.tmod (t.b * key + t.c) t.p) hm
  exact wrapInt_eq (by unfold isInt INT_MIN INT_MAX; omega)

/-! ## C4: range of `hashUniversal` -/

/-- C4: for every `int` key, every `int` capacity `m > 0`, `p = findNextPrime(m)` and
parameters `b` in `[1, p-1]`, `c` in `[0, p-1]`, `hashUniversal` returns an index in
`[0, m)`, and the 64-bit intermediates `b * key` and `b * key + c` do not overflow. -/
theorem hashUniversal_range (t : HashTable) (key : Int) (hk : isInt key) (hm : 0 < t.m)
    (hmi : isInt t.m) (hp : findNextPrime t.m = .ok t.p) (hb : 1 ≤ t.b ∧ t.b ≤ t.p - 1)
    (hc : 0 ≤ t.c ∧ t.c ≤ t.p - 1) :
    (0 ≤ hashUniversal t key ∧ hashUniversal t key < t.m) ∧
    isLL (t.b * key) ∧ isLL (t.b * key + t.c) := by
  obtain ⟨p1, p2, p3⟩ := findNextPrime_ok_bounds t.m t.p hmi hp
  have hpi : isInt t.p := by
    unfold isInt INT_MIN INT_MAX
    unfold INT_MAX at p3
    omega
  refine ⟨?_, universal_intermediate t.b t.c t.p key hk hpi hb hc⟩
  rw [hashUniversal_eq t key hk hm p1 hpi hb hc]
  exact ⟨Int.emod_nonneg _ (by omega), Int.emod_lt_of_pos _ hm⟩

/-- C4 at `m = 4`, `p = 5`, `b = 1`, `c = 0` and the key `-1`. -/
theorem hashUniversal_range_witness :
    isInt (-1) ∧ findNextPrime 4 = .ok 5 ∧
    ((0 ≤ hashUniversal ⟨4, 5, goldenA, 1, 0, [[], [], [], []]⟩ (-1) ∧
      hashUniversal ⟨4, 5, goldenA, 1, 0, [[], [], [], []]⟩ (-1) < 4) ∧
     isLL (1 * (-1)) ∧ isLL (1 * (-1) + 0)) :=
  ⟨by decide, by decide,
    hashUniversal_range ⟨4, 5, goldenA, 1, 0, [[], [], [], []]⟩ (-1) (by decide) (by decide)
      (by decide) (by decide) (by decide) (by decide)⟩

/-! ## C5: the value of `hashUniversal` -/

/-- C5, as stated, fails on the code: with `m = 4`, `p = 5`, `b = 1`, `c = 0` and the key
`-1`, the representative of `b * key + c` in `[0, p)` is `4`, so the claim gives
`4 mod 4 = 0`, while `hashUniversal` returns `3`. -/
theorem hashUniversal_negative_key :
    hashUniversal ⟨4, 5, goldenA, 1, 0, [[], [], [], []]⟩ (-1) = 3 ∧
    ((1 * (-1) + 0 : Int) % 5) % 4 = 0 ∧ Nat.Prime 5 ∧ findNextPrime 4 = .ok 5 := by
  refine ⟨by decide, by decide, by norm_num, by decide⟩

/-- C5 (amended): for every `int` key, capacity `m > 0`, `int` modulus `p ≥ m` and
parameters `b` in `[1, p-1]`, `c` in `[0, p-1]`, `hashUniversal` is the Euclidean
remainder modulo `m` of the truncated remainder `(b * key + c) % p`, so a negative
remainder is normalised into `[0, m)` after the reduction modulo `m`; for a key `≥ 0`
this is `((b * key + c) mod p) mod m`. -/
theorem hashUniversal_value (t : HashTable) (key : Int) (hk : isInt key) (hm : 0 < t.m)
    (hmp : t.m ≤ t.p) (hp : isInt t.p) (hb : 1 ≤ t.b ∧ t.b ≤ t.p - 1)
    (hc : 0 ≤ t.c ∧ t.c ≤ t.p - 1) :
    hashUniversal t key = Int.tmod (t.b * key + t.c) t.p % t.m ∧
    (0 ≤ key → hashUniversal t key = ((t.b * key + t.c) % t.p) % t.m) := by
  refine ⟨hashUniversal_eq t key hk hm hmp hp hb hc, ?_⟩
  intro h0
  rw [hashUniversal_eq t key hk hm hmp hp hb hc]
  have : 0 ≤ t.b * key := mul_nonneg (by omega) h0
  rw [Int.tmod_eq_emod (by omega) (by omega)]

/-- C5 (amended) at `m = 4`, `p = 5`, `b = 3`, `c = 2` and the key `7`. -/
theorem hashUniversal_value_witness :
    isInt 7 ∧ isInt 5 ∧
    (hashUniversal ⟨4, 5, goldenA, 3, 2, [[], [], [], []]⟩ 7
        = Int.tmod (3 * 7 + 2) 5 % 4 ∧
     ((0 : Int) ≤ 7 → hashUniversal ⟨4, 5, goldenA, 3, 2, [[], [], [], []]⟩ 7
        = ((3 * 7 + 2) % 5) % 4)) :=
  ⟨by decide, by decide,
    hashUniversal_value ⟨4, 5, goldenA, 3, 2, [[], [], [], []]⟩ 7 (by decide) (by decide)
      (by decide) (by decide) (by decide) (by decide)⟩


/-! ## Iteration budgets of the auxiliary loops -/

/-- Halving `fuel ≥ n` times counts all binary digits of `n`. -/
theorem bitLengthAux_spec :
    ∀ (fuel n : Nat), n ≤ fuel →
      n < 2 ^ Double.bitLengthAux fuel n ∧
      (n ≠ 0 → 2 ^ (Double.bitLengthAux fuel n - 1) ≤ n) := by
  intro fuel
  induction fuel with
  | zero =>
    intro n hn
    have : n = 0 := by omega
    subst this
    simp [Double.bitLengthAux]
  | succ fuel ih =>
    intro n hn
    unfold Double.bitLengthAux
    by_cases h0 : n = 0
    · subst h0
      simp
    · rw [if_neg h0]
      obtain ⟨h1, h2⟩ := ih (n / 2) (by omega)
      constructor
      · rw [pow_succ]
        omega
      · intro _
        rw [Nat.add_sub_cancel]
        by_cases hh : n / 2 = 0
        · rw [hh]
          have : Double.bitLengthAux fuel 0 = 0 := by
            cases fuel <;> simp [Double.bitLengthAux]
          rw [this]
          simp
          omega
        · have h3 := h2 hh
          have hk : 1 ≤ Double.bitLengthAux fuel (n / 2) := by
            by_contra hlt
            have hz : Double.bitLengthAux fuel (n / 2) = 0 := by omega
            rw [hz] at h1
            simp at h1
            exact hh h1
          obtain ⟨k, hk2⟩ : ∃ k, Double.bitLengthAux fuel (n / 2) = k + 1 :=
            ⟨Double.bitLengthAux fuel (n / 2) - 1, by omega⟩
          rw [hk2] at h3 ⊢
          rw [Nat.add_sub_cancel] at h3
          rw [pow_succ]
          omega

/-- The number `bitLength n` is the number of binary digits of `n ≠ 0`. -/
theorem bitLength_spec (n : Nat) (h : n ≠ 0) :
    2 ^ (Double.bitLength n - 1) ≤ n ∧ n < 2 ^ Double.bitLength n :=
  ⟨(bitLengthAux_spec n n (le_refl n)).2 h, (bitLengthAux_spec n n (le_refl n)).1⟩

/-- Five iterations are enough for the padding loop: afterwards the string has at least
five characters, whatever it was. -/
theorem padLoop_budget :
    ∀ (fuel : Nat) (str : List Char), 5 ≤ str.length + fuel →
      5 ≤ (padLoop fuel str).length := by
  intro fuel
  induction fuel with
  | zero => intro str h; simpa [padLoop] using h
  | succ fuel ih =>
    intro str h
    unfold padLoop
    by_cases hl : str.length < 5
    · rw [if_pos hl]
      exact ih _ (by simp; omega)
    · rw [if_neg hl]
      omega

/-! ## C6: `hashMultiplication` -/

/-- The constant `goldenA` is a 53-bit double within half a unit in the last place of the
decimal literal `0.6180339887`, that is, the double nearest to it. -/
theorem goldenA_nearest :
    goldenA.exp = -53 ∧ 2 ^ 52 ≤ goldenA.mant ∧ goldenA.mant < 2 ^ 53 ∧
    2 * |goldenA.mant * 10 ^ 10 - 6180339887 * 2 ^ 53| ≤ 10 ^ 10 := by
  decide

/-- C6 fails on the code for negative keys: with `m = 10` and the key `-1`,
`fmod(-1 * A, 1.0)` is `-A`, the product `10 * (-A)` truncates to `-6`, and
`hashMultiplication` returns `-6`, which is not in `[0, 10)`. -/
theorem hashMultiplication_negative_key :
    hashMultiplication ⟨10, 11, goldenA, 1, 0, List.replicate 10 []⟩ (-1) = -6 ∧
    Double.fmod (Double.mul (Double.ofInt (-1)) goldenA) ⟨1, 0⟩
      = ⟨-5566755282423243, -53⟩ ∧
    isInt (-1) ∧ findNextPrime 10 = .ok 11 := by
  decide


/-! ## Multiplication hashing: the sign of the result -/

/-- Rounding keeps the sign of the mantissa. -/
theorem round53_sign (x : Double) :
    (0 ≤ x.mant → 0 ≤ (Double.round53 x).mant) ∧
    (x.mant ≤ 0 → (Double.round53 x).mant ≤ 0) := by
  unfold Double.round53
  simp only
  split
  · exact ⟨fun h => h, fun h => h⟩
  · constructor
    · intro h
      rw [if_neg (by omega)]
      exact Int.ofNat_nonneg _
    · intro h
      by_cases h0 : x.mant < 0
      · rw [if_pos h0]
        exact Int.neg_nonpos_of_nonneg (Int.ofNat_nonneg _)
      · have hz : x.mant = 0 := by omega
        rename_i hbig
        rw [hz] at hbig
        simp at hbig

/-- Truncation to an integer keeps the sign of the mantissa. -/
theorem toInt_sign (x : Double) :
    (0 ≤ x.mant → 0 ≤ Double.toInt x) ∧ (x.mant ≤ 0 → Double.toInt x ≤ 0) := by
  unfold Double.toInt
  have hpow : ∀ k : Nat, (0 : Int) < 2 ^ k := fun k => by positivity
  split
  · constructor
    · intro h
      exact mul_nonneg h (le_of_lt (hpow _))
    · intro h
      exact mul_nonpos_of_nonpos_of_nonneg h (le_of_lt (hpow _))
  · constructor
    · intro h
      exact Int.tdiv_nonneg h (le_of_lt (hpow _))
    · intro h
      have h1 : 0 ≤ (-x.mant).tdiv (2 ^ (-x.exp).toNat) :=
        Int.tdiv_nonneg (by omega) (le_of_lt (hpow _))
      rw [Int.neg_tdiv] at h1
      omega

/-- The remainder `fmod(x, 1.0)` keeps the sign of `x`. -/
theorem fmod_one_sign (x : Double) :
    (0 ≤ x.mant → 0 ≤ (Double.fmod x ⟨1, 0⟩).mant) ∧
    (x.mant ≤ 0 → (Double.fmod x ⟨1, 0⟩).mant ≤ 0) := by
  unfold Double.fmod
  simp only
  have hpow : ∀ k : Nat, (0 : Int) < 2 ^ k := fun k => by positivity
  have hm : (0 : Int) < 1 * 2 ^ (0 - min x.exp 0).toNat := by
    rw [one_mul]; exact hpow _
  obtain ⟨_, _, h3, h4, _⟩ := tmod_facts (x.mant * 2 ^ (x.exp - min x.exp 0).toNat) _ hm
  exact ⟨fun h => h3 (mul_nonneg h (le_of_lt (hpow _))),
    fun h => h4 (mul_nonpos_of_nonpos_of_nonneg h (le_of_lt (hpow _)))⟩

/-- With a non-negative constant `A` and capacity `m > 0`, `hashMultiplication` returns
an index in `[0, m)` for a key `≥ 0` and a value in `(-m, 0]` for a key `≤ 0`. -/
theorem hashMultiplication_sign (t : HashTable) (key : Int) (hm : 0 < t.m)
    (hA : 0 ≤ t.A.mant) :
    (0 ≤ key → 0 ≤ hashMultiplication t key ∧ hashMultiplication t key < t.m) ∧
    (key ≤ 0 → -t.m < hashMultiplication t key ∧ hashMultiplication t key ≤ 0) := by
  unfold hashMultiplication
  simp only
  generalize hv : Double.fmod (Double.mul (Double.ofInt key) t.A) ⟨1, 0⟩ = value
  have hval : (0 ≤ key → 0 ≤ value.mant) ∧ (key ≤ 0 → value.mant ≤ 0) := by
    rw [← hv]
    constructor
    · intro h
      apply (fmod_one_sign _).1
      apply (round53_sign _).1
      exact mul_nonneg h hA
    · intro h
      apply (fmod_one_sign _).2
      apply (round53_sign _).2
      exact mul_nonpos_of_nonpos_of_nonneg h hA
  obtain ⟨f1, f2, f3, f4, _⟩ :=
    tmod_facts (Double.toInt (Double.mul (Double.ofInt t.m) value)) t.m hm
  constructor
  · intro h
    refine ⟨f3 ?_, f2⟩
    apply (toInt_sign _).1
    apply (round53_sign _).1
    exact mul_nonneg (le_of_lt hm) (hval.1 h)
  · intro h
    refine ⟨f1, f4 ?_⟩
    apply (toInt_sign _).2
    apply (round53_sign _).2
    exact mul_nonpos_of_nonneg_of_nonpos (le_of_lt hm) (hval.2 h)

/-! ## Decimal rendering -/

theorem decDigits_length (len n : Nat) : (decDigits len n).length = len := by
  induction len generalizing n with
  | zero => rfl
  | succ len ih => simp [decDigits, ih]

/-- The digit loop of `Nat.toDigits` produces the `d` digits of a `d`-digit number. -/
theorem toDigitsCore_eq_decDigits :
    ∀ (fuel n d : Nat) (ds : List Char), n < fuel → n < 10 ^ (d + 1) →
      (d = 0 ∨ 10 ^ d ≤ n) →
      Nat.toDigitsCore 10 fuel n ds = decDigits (d + 1) n ++ ds := by
  intro fuel
  induction fuel with
  | zero => intro n d ds h; omega
  | succ fuel ih =>
    intro n d ds hfuel hlt hge
    unfold Nat.toDigitsCore
    by_cases h0 : n / 10 = 0
    · simp only [h0, if_true]
      have hn : n < 10 := by omega
      have hd : d = 0 := by
        rcases hge with h | h
        · exact h
        · by_contra hne
          have : 10 ^ 1 ≤ 10 ^ d := Nat.pow_le_pow_right (by omega) (by omega)
          omega
      subst hd
      simp [decDigits]
    · simp only [h0, if_false]
      have hn : 10 ≤ n := by omega
      obtain ⟨e, rfl⟩ : ∃ e, d = e + 1 := by
        rcases d with _ | e
        · simp at hlt; omega
        · exact ⟨e, rfl⟩
      have hge2 : 10 ^ (e + 1) ≤ n := by
        rcases hge with h | h
        · omega
        · exact h
      rw [ih (n / 10) e (Nat.digitChar (n % 10) :: ds) (by omega)
        (by rw [Nat.div_lt_iff_lt_mul (by omega)]; rw [pow_succ] at hlt; exact hlt)
        (by
          right
          rw [Nat.le_div_iff_mul_le (by omega)]
          rw [pow_succ] at hge2
          exact hge2)]
      conv_rhs => rw [decDigits]
      simp

/-- The rendering `to_string n` consists of the `log10 n + 1` decimal digits of `n`. -/
theorem to_string_eq_decDigits (n : Nat) :
    to_string n = decDigits (Nat.log 10 n + 1) n := by
  unfold to_string Nat.toDigits
  rw [toDigitsCore_eq_decDigits (n + 1) n (Nat.log 10 n) [] (by omega)
    (Nat.lt_pow_succ_log_self (by omega) n)
    (by
      by_cases h : n = 0
      · left; subst h; simp
      · right; exact Nat.pow_log_le_self 10 h)]
  simp

/-- A leading zero extends the digits of a number that is short enough. -/
theorem decDigits_zero_pad (len n : Nat) (h : n < 10 ^ len) :
    decDigits (len + 1) n = '0' :: decDigits len n := by
  induction len generalizing n with
  | zero =>
    have : n = 0 := by simpa using h
    subst this
    rfl
  | succ len ih =>
    rw [decDigits, ih (n / 10) (by
      rw [Nat.div_lt_iff_lt_mul (by omega)]; rw [pow_succ] at h; exact h)]
    conv_rhs => rw [decDigits]
    simp

/-- The padding loop turns the digits of a number into its digits at width
`max 5 len`. -/
theorem padLoop_decDigits (n : Nat) :
    ∀ (fuel len : Nat), n < 10 ^ len → 5 ≤ len + fuel →
      padLoop fuel (decDigits len n) = decDigits (max 5 len) n := by
  intro fuel
  induction fuel with
  | zero =>
    intro len _ h5
    have : max 5 len = len := by omega
    rw [this]
    rfl
  | succ fuel ih =>
    intro len hlt h5
    unfold padLoop
    rw [decDigits_length]
    by_cases hl : len < 5
    · rw [if_pos hl, ← decDigits_zero_pad len n hlt,
        ih (len + 1) (by rw [pow_succ]; omega) (by omega)]
      have : max 5 (len + 1) = max 5 len := by omega
      rw [this]
    · rw [if_neg hl]
      have : max 5 len = len := by omega
      rw [this]

/-- The digits at width `a + b` are the digits of the upper part followed by the `b`
lowest digits. -/
theorem decDigits_add (a b n : Nat) :
    decDigits (a + b) n = decDigits a (n / 10 ^ b) ++ decDigits b n := by
  induction b generalizing n with
  | zero => simp [decDigits]
  | succ b ih =>
    rw [← Nat.add_assoc, decDigits, ih (n / 10)]
    conv_rhs => rw [decDigits]
    rw [Nat.div_div_eq_div_mul, pow_succ, Nat.mul_comm 10 (10 ^ b)]
    simp

/-- The three characters from position `pos` of the digits at width `pos + 3 + rest`. -/
theorem decDigits_window (pos rest n : Nat) :
    ((decDigits (pos + (3 + rest)) n).drop pos).take 3 = decDigits 3 (n / 10 ^ rest) := by
  rw [decDigits_add pos (3 + rest) n]
  rw [List.drop_left' (decDigits_length pos _)]
  rw [decDigits_add 3 rest n]
  rw [List.take_left' (decDigits_length 3 _)]


/-- Parsing three decimal digits gives their value. -/
theorem stoi_three_digits :
    ∀ a < 10, ∀ b < 10, ∀ c < 10,
      stoi [Nat.digitChar a, Nat.digitChar b, Nat.digitChar c]
        = some ((100 * a + 10 * b + c : Nat) : Int) := by
  decide

/-- Parsing the three lowest digits of `x` gives `x mod 1000`. -/
theorem stoi_decDigits_three (x : Nat) :
    stoi (decDigits 3 x) = some ((x % 1000 : Nat) : Int) := by
  have h : decDigits 3 x
      = [Nat.digitChar (x / 10 / 10 % 10), Nat.digitChar (x / 10 % 10),
         Nat.digitChar (x % 10)] := by
    simp [decDigits]
  rw [h, stoi_three_digits _ (Nat.mod_lt _ (by omega)) _ (Nat.mod_lt _ (by omega)) _
    (Nat.mod_lt _ (by omega))]
  congr 2
  omega


theorem toU64_of_nonneg (x : Int) (h0 : 0 ≤ x) (h1 : x < 18446744073709551616) :
    toU64 x = x.toNat := by
  unfold toU64
  rw [Int.emod_eq_of_lt h0 h1]

theorem log10_lt_20 (sq : Nat) (hsqlt : sq < 18446744073709551616) : Nat.log 10 sq < 20 := by
  by_cases h0 : sq = 0
  · subst h0; simp
  · exact Nat.log_lt_of_lt_pow h0 (by omega)

/-- After the padding loop the string of `sq` has the `max 5 (log10 sq + 1)` digits of
`sq`. -/
theorem padLoop_to_string (sq : Nat) :
    padLoop 5 (to_string sq) = decDigits (max 5 (Nat.log 10 sq + 1)) sq := by
  rw [to_string_eq_decDigits, padLoop_decDigits sq 5 _
    (Nat.lt_pow_succ_log_self (by omega) sq) (by omega)]

/-- The steps of the `try` block after the padding, for a string of `L` digits with
`5 ≤ L ≤ 20`. -/
theorem midSquare_window (sq L : Nat) (h5 : 5 ≤ L) (h20 : L ≤ 20) :
    substr (decDigits L sq)
        (toU64 (max 0 (wrapInt (wrapInt ((L / 2 : Nat) : Int) - 1))))
        (toU64 (min 3 (wrapInt (wrapInt (L : Int)
          - max 0 (wrapInt (wrapInt ((L / 2 : Nat) : Int) - 1))))))
      = some (decDigits 3 (sq / 10 ^ (L - L / 2 - 2))) := by
  have e1 : wrapInt ((L / 2 : Nat) : Int) = ((L / 2 : Nat) : Int) :=
    wrapInt_eq (by unfold isInt INT_MIN INT_MAX; omega)
  have e2 : wrapInt (((L / 2 : Nat) : Int) - 1) = ((L / 2 : Nat) : Int) - 1 :=
    wrapInt_eq (by unfold isInt INT_MIN INT_MAX; omega)
  have e3 : wrapInt (L : Int) = (L : Int) :=
    wrapInt_eq (by unfold isInt INT_MIN INT_MAX; omega)
  have e4 : max 0 (((L / 2 : Nat) : Int) - 1) = ((L / 2 - 1 : Nat) : Int) := by omega
  rw [e1, e2, e3, e4]
  have e5 : wrapInt ((L : Int) - ((L / 2 - 1 : Nat) : Int)) = ((L - (L / 2 - 1) : Nat) : Int) := by
    rw [wrapInt_eq (by unfold isInt INT_MIN INT_MAX; omega)]
    omega
  have e6 : min 3 (((L - (L / 2 - 1) : Nat)) : Int) = ((3 : Nat) : Int) := by omega
  rw [e5, e6]
  rw [toU64_of_nonneg _ (by omega) (by omega), toU64_of_nonneg _ (by omega) (by omega)]
  simp only [Int.toNat_ofNat]
  unfold substr
  rw [decDigits_length, if_neg (by omega)]
  have hL : L = (L / 2 - 1) + (3 + (L - L / 2 - 2)) := by omega
  conv_lhs => rw [hL]
  have hpos : ((L / 2 - 1) + (3 + (L - L / 2 - 2))) / 2 - 1 = L / 2 - 1 := by omega
  rw [hpos, decDigits_window]

/-- The `try` block of `hashMidSquare` always succeeds: with `sq` the computed square and
`L = max 5 (number of decimal digits of sq)`, it yields the three digits
`(sq / 10 ^ (L - L / 2 - 2)) mod 1000`, reduced with `% m`. -/
theorem hashMidSquareTry_eq (t : HashTable) (key : Int) (sq L : Nat)
    (hsq : sq = (toU64 key * toU64 key) % 18446744073709551616)
    (hL : L = max 5 (Nat.log 10 sq + 1)) :
    hashMidSquareTry t key
      = some (Int.tmod ((sq / 10 ^ (L - L / 2 - 2) % 1000 : Nat) : Int) t.m) := by
  have hsqlt : sq < 18446744073709551616 := by
    rw [hsq]; exact Nat.mod_lt _ (by omega)
  have hlog := log10_lt_20 sq hsqlt
  have h5 : 5 ≤ L := by omega
  have h20 : L ≤ 20 := by omega
  unfold hashMidSquareTry
  simp only [← hsq, padLoop_to_string, ← hL, decDigits_length]
  rw [midSquare_window sq L h5 h20, Option.some_bind, stoi_decDigits_three, Option.some_bind]

/-- The unsigned 64-bit product computed for an `int` key is the exact square. -/
theorem square_exact (key : Int) (hk : isInt key) :
    (toU64 key * toU64 key) % 18446744073709551616 = (key * key).toNat := by
  unfold isInt INT_MIN INT_MAX at hk
  have h0 : 0 ≤ key * key := mul_self_nonneg key
  have h1 : key * key < 18446744073709551616 := by nlinarith
  apply Int.ofNat_inj.mp
  unfold toU64
  push_cast
  rw [Int.toNat_of_nonneg (Int.emod_nonneg _ (by omega)), Int.toNat_of_nonneg h0,
    ← Int.mul_emod, Int.emod_eq_of_lt h0 h1]

/-! ## C7: range and fallback of `hashMidSquare` -/

/-- C7: for every key and every capacity `m > 0`, `hashMidSquare` returns an index in
`[0, m)`; the function is total, and whenever its `try` block fails the result is
exactly `0`. -/
theorem hashMidSquare_range (t : HashTable) (key : Int) (hm : 0 < t.m) :
    (0 ≤ hashMidSquare t key ∧ hashMidSquare t key < t.m) ∧
    (hashMidSquareTry t key = none → hashMidSquare t key = 0) := by
  constructor
  · unfold hashMidSquare
    rw [hashMidSquareTry_eq t key _ _ rfl rfl, Option.getD_some]
    exact ⟨Int.tmod_nonneg _ (by omega), Int.tmod_lt_of_pos _ hm⟩
  · intro h
    unfold hashMidSquare
    rw [h, Option.getD_none]

/-- C7 at the key `-46341` and `m = 10`. -/
theorem hashMidSquare_range_witness :
    (0 ≤ hashMidSquare ⟨10, 11, goldenA, 1, 0, List.replicate 10 []⟩ (-46341) ∧
      hashMidSquare ⟨10, 11, goldenA, 1, 0, List.replicate 10 []⟩ (-46341) < 10) ∧
    (hashMidSquareTry ⟨10, 11, goldenA, 1, 0, List.replicate 10 []⟩ (-46341) = none →
      hashMidSquare ⟨10, 11, goldenA, 1, 0, List.replicate 10 []⟩ (-46341) = 0) :=
  hashMidSquare_range ⟨10, 11, goldenA, 1, 0, List.replicate 10 []⟩ (-46341) (by decide)

/-! ## C8: the digits taken by `hashMidSquare` -/

/-- C8: for every `int` key and capacity `m > 0`, the unsigned 64-bit product is the
exact square `key * key`, and with `L = max 5 (number of decimal digits of key * key)`
the result is `((key * key / 10 ^ (L - L / 2 - 2)) mod 1000) mod m`. -/
theorem hashMidSquare_digits (t : HashTable) (key : Int) (hk : isInt key) (hm : 0 < t.m)
    (L : Nat) (hL : L = max 5 (Nat.log 10 (key * key).toNat + 1)) :
    (toU64 key * toU64 key) % 18446744073709551616 = (key * key).toNat ∧
    (padLoop 5 (to_string (key * key).toNat)).length = L ∧
    hashMidSquare t key = (key * key / 10 ^ (L - L / 2 - 2) % 1000) % t.m := by
  have hsq := square_exact key hk
  refine ⟨hsq, ?_, ?_⟩
  · rw [padLoop_to_string, decDigits_length, hL]
  · unfold hashMidSquare
    rw [hashMidSquareTry_eq t key (key * key).toNat L hsq.symm hL, Option.getD_some]
    have h0 : 0 ≤ key * key := mul_self_nonneg key
    rw [Int.tmod_eq_emod (by omega) (by omega)]
    push_cast
    rw [Int.toNat_of_nonneg h0]

/-- The square `625` of the key `25` has three decimal digits, so its padded width
is `5`. -/
theorem padded_width_625 : 5 = max 5 (Nat.log 10 ((25 : Int) * 25).toNat + 1) := by
  have h : ((25 : Int) * 25).toNat = 625 := by decide
  rw [h, Nat.log_eq_of_pow_le_of_lt_pow (by norm_num : 10 ^ 2 ≤ 625) (by norm_num)]
  rfl

/-- C8 at the key `25` and `m = 10`: the square is `625`, the padded string is `00625`,
the digits taken are `062`, their value is `62`, and the index is `2`. -/
theorem hashMidSquare_digits_witness :
    (isInt 25 ∧ 5 = max 5 (Nat.log 10 ((25 : Int) * 25).toNat + 1)) ∧
    ((toU64 25 * toU64 25) % 18446744073709551616 = ((25 : Int) * 25).toNat ∧
     (padLoop 5 (to_string ((25 : Int) * 25).toNat)).length = 5 ∧
     hashMidSquare ⟨10, 11, goldenA, 1, 0, List.replicate 10 []⟩ 25
       = ((25 : Int) * 25 / 10 ^ (5 - 5 / 2 - 2) % 1000) % 10) ∧
    (toU64 25 * toU64 25) % 18446744073709551616 = 625 ∧
    padLoop 5 (to_string 625) = ['0', '0', '6', '2', '5'] ∧
    substr ['0', '0', '6', '2', '5'] 1 3 = some ['0', '6', '2'] ∧
    stoi ['0', '6', '2'] = some 62 ∧
    hashMidSquare ⟨10, 11, goldenA, 1, 0, List.replicate 10 []⟩ 25 = 2 :=
  ⟨⟨by decide, padded_width_625⟩,
   hashMidSquare_digits ⟨10, 11, goldenA, 1, 0, List.replicate 10 []⟩ 25 (by decide)
     (by decide) 5 padded_width_625,
   by decide, by decide, by decide, by decide, by decide⟩


/-! ## Table operations: auxiliary facts -/

/-- In a bucket that contains `key`, `find` is the position of its first occurrence. -/
theorem find_of_mem (bucket : List Int) (key : Int) (h : key ∈ bucket) :
    ∃ pre post, bucket = pre ++ key :: post ∧ key ∉ pre ∧ find bucket key = pre.length := by
  induction bucket with
  | nil => simp at h
  | cons x rest ih =>
    by_cases hx : x = key
    · exact ⟨[], rest, by simp [hx], by simp, by simp [find, hx]⟩
    · have hrest : key ∈ rest := by
        rcases List.mem_cons.mp h with h | h
        · exact absurd h.symm hx
        · exact h
      obtain ⟨pre, post, h1, h2, h3⟩ := ih hrest
      refine ⟨x :: pre, post, by simp [h1], ?_, by simp [find, hx, h3]⟩
      intro hmem
      rcases List.mem_cons.mp hmem with h | h
      · exact hx h.symm
      · exact h2 h

/-- In a bucket that does not contain `key`, `find` is the end position. -/
theorem find_of_not_mem (bucket : List Int) (key : Int) (h : key ∉ bucket) :
    find bucket key = bucket.length := by
  induction bucket with
  | nil => rfl
  | cons x rest ih =>
    have hx : x ≠ key := fun e => h (by simp [e])
    have hrest : key ∉ rest := fun e => h (List.mem_cons_of_mem x e)
    simp [find, hx, ih hrest]

/-- Erasing the element that follows the prefix `pre`. -/
theorem eraseIdx_first (pre post : List Int) (key : Int) :
    (pre ++ key :: post).eraseIdx pre.length = pre ++ post := by
  rw [List.eraseIdx_append_of_length_le (le_refl _)]
  simp

/-! ## C9: `addElement` -/

/-- C9: for every table with `m` buckets, key and strategy `h`: if `h(key)` is in
`[0, m)`, `addElement` succeeds, appends `key` at the end of bucket `h(key)` and leaves
every other bucket, the number of buckets, `m`, `p`, `A`, `b` and `c` unchanged; if
`h(key)` is outside `[0, m)`, it raises `out_of_range` and the table is unchanged. -/
theorem addElement_spec (t : HashTable) (key : Int) (h : HashTable → Int → Int)
    (hlen : t.table.length = t.m.toNat) :
    (0 ≤ h t key ∧ h t key < t.m →
      (addElement t key h).1 = .ok () ∧
      (∃ bucket, t.table[(h t key).toNat]? = some bucket ∧
        (addElement t key h).2.table[(h t key).toNat]? = some (bucket ++ [key])) ∧
      (∀ j, j ≠ (h t key).toNat → (addElement t key h).2.table[j]? = t.table[j]?) ∧
      (addElement t key h).2.table.length = t.table.length ∧
      (addElement t key h).2.m = t.m ∧ (addElement t key h).2.p = t.p ∧
      (addElement t key h).2.A = t.A ∧ (addElement t key h).2.b = t.b ∧
      (addElement t key h).2.c = t.c) ∧
    (¬ (0 ≤ h t key ∧ h t key < t.m) → addElement t key h = (.error .out_of_range, t)) := by
  constructor
  · rintro ⟨h0, h1⟩
    have hcond : ¬ (h t key < 0 ∨ h t key ≥ t.m) := by omega
    have hidx : (h t key).toNat < t.table.length := by omega
    unfold addElement
    simp only [if_neg hcond]
    refine ⟨trivial, ⟨t.table[(h t key).toNat], List.getElem?_eq_getElem hidx, ?_⟩, ?_, ?_,
      trivial, trivial, trivial, trivial, trivial⟩
    · rw [List.getElem?_modify_eq, List.getElem?_eq_getElem hidx]
      rfl
    · intro j hj
      exact List.getElem?_modify_ne _ _ (Ne.symm hj)
    · exact List.length_modify _ _ _
  · intro hout
    have hcond : h t key < 0 ∨ h t key ≥ t.m := by omega
    unfold addElement
    simp only [if_pos hcond]

/-- C9 at `sampleTable`: with division hashing the key `7` is appended to bucket `1`,
and with a strategy that answers `3` the call raises `out_of_range`. -/
theorem addElement_spec_witness :
    sampleTable.table.length = sampleTable.m.toNat ∧
    (0 ≤ hashDivision sampleTable 7 ∧ hashDivision sampleTable 7 < sampleTable.m) ∧
    ((addElement sampleTable 7 hashDivision).1 = .ok () ∧
      (∃ bucket, sampleTable.table[(hashDivision sampleTable 7).toNat]? = some bucket ∧
        (addElement sampleTable 7 hashDivision).2.table[(hashDivision sampleTable 7).toNat]?
          = some (bucket ++ [7])) ∧
      (∀ j, j ≠ (hashDivision sampleTable 7).toNat →
        (addElement sampleTable 7 hashDivision).2.table[j]? = sampleTable.table[j]?) ∧
      (addElement sampleTable 7 hashDivision).2.table.length = sampleTable.table.length ∧
      (addElement sampleTable 7 hashDivision).2.m = sampleTable.m ∧
      (addElement sampleTable 7 hashDivision).2.p = sampleTable.p ∧
      (addElement sampleTable 7 hashDivision).2.A = sampleTable.A ∧
      (addElement sampleTable 7 hashDivision).2.b = sampleTable.b ∧
      (addElement sampleTable 7 hashDivision).2.c = sampleTable.c) ∧
    (addElement sampleTable 7 hashDivision).2.table = [[6, 3, 9, 3], [7], [5]] ∧
    ¬ (0 ≤ (fun _ _ => 3 : HashTable → Int → Int) sampleTable 7 ∧
        (fun _ _ => 3 : HashTable → Int → Int) sampleTable 7 < sampleTable.m) ∧
    addElement sampleTable 7 (fun _ _ => 3) = (.error .out_of_range, sampleTable) :=
  ⟨by decide, by decide,
    (addElement_spec sampleTable 7 hashDivision (by decide)).1 (by decide),
    by decide, by decide,
    (addElement_spec sampleTable 7 (fun _ _ => 3) (by decide)).2 (by decide)⟩

/-! ## C10: `removeElement` when the key is present -/

/-- C10: for every table, key and strategy `h` with `h(key)` in `[0, m)` such that bucket
`h(key)` contains `key`: `removeElement` returns `true`, the bucket afterwards is the
previous one with exactly the first occurrence of `key` deleted (`pre ++ post` where the
bucket was `pre ++ key :: post` and `key` does not occur in `pre`), and every other
bucket, the number of buckets, `m`, `p`, `A`, `b` and `c` are unchanged. -/
theorem removeElement_present (t : HashTable) (key : Int) (h : HashTable → Int → Int)
    (hr : 0 ≤ h t key ∧ h t key < t.m) (bucket : List Int)
    (hb : t.table[(h t key).toNat]? = some bucket) (hmem : key ∈ bucket) :
    ∃ pre post, bucket = pre ++ key :: post ∧ key ∉ pre ∧
      (removeElement t key h).1 = true ∧
      (removeElement t key h).2.table[(h t key).toNat]? = some (pre ++ post) ∧
      (∀ j, j ≠ (h t key).toNat → (removeElement t key h).2.table[j]? = t.table[j]?) ∧
      (removeElement t key h).2.table.length = t.table.length ∧
      (removeElement t key h).2.m = t.m ∧ (removeElement t key h).2.p = t.p ∧
      (removeElement t key h).2.A = t.A ∧ (removeElement t key h).2.b = t.b ∧
      (removeElement t key h).2.c = t.c := by
  obtain ⟨pre, post, hsplit, hpre, hfind⟩ := find_of_mem bucket key hmem
  have hcond : ¬ (h t key < 0 ∨ h t key ≥ t.m) := by omega
  have hidx : (h t key).toNat < t.table.length := by
    by_contra hge
    rw [List.getElem?_eq_none (by omega)] at hb
    exact Option.noConfusion hb
  have hget : t.table.getD (h t key).toNat [] = bucket := by
    rw [List.getD_eq_getElem?_getD, hb]
    rfl
  have hne : find bucket key ≠ bucket.length := by
    rw [hfind, hsplit]
    simp
  refine ⟨pre, post, hsplit, hpre, ?_⟩
  unfold removeElement
  simp only [if_neg hcond, hget, if_pos hne]
  refine ⟨trivial, ?_, ?_, ?_, trivial, trivial, trivial, trivial, trivial⟩
  · rw [List.getElem?_set_self hidx, hfind]
    conv_lhs => rw [hsplit]
    rw [eraseIdx_first]
  · intro j hj
    exact List.getElem?_set_ne (Ne.symm hj)
  · exact List.length_set _ _ _

/-- C10 at `sampleTable`, division hashing and the key `3`, which occurs twice in
bucket `0`: the first occurrence is deleted and the second one is kept. -/
theorem removeElement_present_witness :
    (0 ≤ hashDivision sampleTable 3 ∧ hashDivision sampleTable 3 < sampleTable.m) ∧
    sampleTable.table[(hashDivision sampleTable 3).toNat]? = some [6, 3, 9, 3] ∧
    (3 : Int) ∈ [6, 3, 9, 3] ∧
    (∃ pre post, ([6, 3, 9, 3] : List Int) = pre ++ 3 :: post ∧ (3 : Int) ∉ pre ∧
      (removeElement sampleTable 3 hashDivision).1 = true ∧
      (removeElement sampleTable 3 hashDivision).2.table[(hashDivision sampleTable 3).toNat]?
        = some (pre ++ post) ∧
      (∀ j, j ≠ (hashDivision sampleTable 3).toNat →
        (removeElement sampleTable 3 hashDivision).2.table[j]? = sampleTable.table[j]?) ∧
      (removeElement sampleTable 3 hashDivision).2.table.length
        = sampleTable.table.length ∧
      (removeElement sampleTable 3 hashDivision).2.m = sampleTable.m ∧
      (removeElement sampleTable 3 hashDivision).2.p = sampleTable.p ∧
      (removeElement sampleTable 3 hashDivision).2.A = sampleTable.A ∧
      (removeElement sampleTable 3 hashDivision).2.b = sampleTable.b ∧
      (removeElement sampleTable 3 hashDivision).2.c = sampleTable.c) ∧
    removeElement sampleTable 3 hashDivision
      = (true, ⟨3, 3, goldenA, 1, 0, [[6, 9, 3], [], [5]]⟩) :=
  ⟨by decide, by decide, by decide,
    removeElement_present sampleTable 3 hashDivision (by decide) [6, 3, 9, 3] (by decide)
      (by decide),
    by decide⟩

/-! ## C11: `removeElement` when the key is absent -/

/-- C11: for every table, key and strategy `h`: if `h(key)` is outside `[0, m)` or bucket
`h(key)` does not contain `key`, `removeElement` returns `false` and the table is exactly
what it was; and `removeElement` returns `false` only in those cases. -/
theorem removeElement_absent (t : HashTable) (key : Int) (h : HashTable → Int → Int) :
    ((h t key < 0 ∨ h t key ≥ t.m ∨ key ∉ t.table.getD (h t key).toNat []) →
      removeElement t key h = (false, t)) ∧
    ((removeElement t key h).1 = false →
      (h t key < 0 ∨ h t key ≥ t.m ∨ key ∉ t.table.getD (h t key).toNat [])) := by
  constructor
  · intro hc
    unfold removeElement
    by_cases hr : h t key < 0 ∨ h t key ≥ t.m
    · simp only [if_pos hr]
    · have hmem : key ∉ t.table.getD (h t key).toNat [] := by
        rcases hc with h1 | h1 | h1
        · exact absurd (Or.inl h1) hr
        · exact absurd (Or.inr h1) hr
        · exact h1
      simp only [if_neg hr, find_of_not_mem _ key hmem, ne_eq, not_true_eq_false, if_false]
  · intro hf
    by_contra hcon
    have hr : ¬ (h t key < 0 ∨ h t key ≥ t.m) := fun hx => by
      rcases hx with h1 | h1
      · exact hcon (Or.inl h1)
      · exact hcon (Or.inr (Or.inl h1))
    have hmem : key ∈ t.table.getD (h t key).toNat [] := by
      by_contra hx
      exact hcon (Or.inr (Or.inr hx))
    obtain ⟨pre, post, hsplit, _, hfind⟩ := find_of_mem _ key hmem
    have hne : find (t.table.getD (h t key).toNat []) key
        ≠ (t.table.getD (h t key).toNat []).length := by
      rw [hfind]
      conv_rhs => rw [hsplit]
      simp
    unfold removeElement at hf
    simp only [if_neg hr, if_pos hne] at hf
    exact Bool.noConfusion hf

/-- C11 at `sampleTable`: the key `7` is not in bucket `1`, a strategy that answers `3` is
out of range, and a table without keys holds no key. -/
theorem removeElement_absent_witness :
    ((7 : Int) ∉ sampleTable.table.getD (hashDivision sampleTable 7).toNat [] ∧
      removeElement sampleTable 7 hashDivision = (false, sampleTable)) ∧
    ((fun _ _ => 3 : HashTable → Int → Int) sampleTable 6 ≥ sampleTable.m ∧
      removeElement sampleTable 6 (fun _ _ => 3) = (false, sampleTable)) ∧
    removeElement ⟨3, 3, goldenA, 1, 0, [[], [], []]⟩ 6 hashDivision
      = (false, ⟨3, 3, goldenA, 1, 0, [[], [], []]⟩) ∧
    ((removeElement sampleTable 3 hashDivision).1 = false →
      (hashDivision sampleTable 3 < 0 ∨ hashDivision sampleTable 3 ≥ sampleTable.m ∨
        (3 : Int) ∉ sampleTable.table.getD (hashDivision sampleTable 3).toNat [])) :=
  ⟨⟨by decide, (removeElement_absent sampleTable 7 hashDivision).1 (Or.inr (Or.inr (by decide)))⟩,
   ⟨by decide, (removeElement_absent sampleTable 6 (fun _ _ => 3)).1 (Or.inr (Or.inl (by decide)))⟩,
   (removeElement_absent ⟨3, 3, goldenA, 1, 0, [[], [], []]⟩ 6 hashDivision).1
     (Or.inr (Or.inr (by decide))),
   (removeElement_absent sampleTable 3 hashDivision).2⟩

/-! ## C13: `clear` -/

/-- C13: for every table, `clear` leaves a table with the same number of buckets, all of
them empty, and with `m`, `p`, `A`, `b` and `c` unchanged, so that each of the four hash
functions returns for every key the same index after `clear` as before it. -/
theorem clear_spec (t : HashTable) :
    (clear t).table.length = t.table.length ∧
    (∀ bucket ∈ (clear t).table, bucket = []) ∧
    (clear t).m = t.m ∧ (clear t).p = t.p ∧ (clear t).A = t.A ∧ (clear t).b = t.b ∧
    (clear t).c = t.c ∧
    ∀ key : Int,
      hashDivision (clear t) key = hashDivision t key ∧
      hashMultiplication (clear t) key = hashMultiplication t key ∧
      hashMidSquare (clear t) key = hashMidSquare t key ∧
      hashUniversal (clear t) key = hashUniversal t key := by
  refine ⟨by simp [clear], ?_, rfl, rfl, rfl, rfl, rfl, ?_⟩
  · intro bucket hb
    simp only [clear, List.mem_map] at hb
    obtain ⟨_, _, hb⟩ := hb
    exact hb.symm
  · intro key
    refine ⟨?_, ?_, ?_, ?_⟩
    · simp only [hashDivision, clear]
    · simp only [hashMultiplication, clear]
    · simp only [hashMidSquare, hashMidSquareTry, clear]
    · simp only [hashUniversal, clear]

/-! ## C20: `isPrime` -/

/-- C20: for every `int` `num` below `46337 ^ 2 = 2147117569`, `isPrime num` is `true` if
and only if `num` is a prime number; it is `false` for every `num ≤ 1`; and the square
`i * i` of every value that the loop variable takes fits in `int`. -/
theorem isPrime_decides (num : Int) (_hnum : isInt num) (hB : num < 2147117569) :
    (isPrime num = true ↔ Nat.Prime num.toNat) ∧
    (num ≤ 1 → isPrime num = false) ∧
    (∀ i : Int, 5 ≤ i → i % 6 = 5 → (i - 6) * (i - 6) ≤ num →
      isInt (i * i) ∧ wrapInt (i * i) = i * i) := by
  refine ⟨?_, ?_, ?_⟩
  · rw [isPrime_spec num hB]
    exact decide_eq_true_iff
  · intro h1
    unfold isPrime
    rw [if_pos h1]
  · intro i h5 hmod hprev
    have hub : i ≤ 46337 := by
      by_contra hgt
      have h1 : 46337 ≤ i - 6 := by omega
      have h2 : (46337 : Int) * 46337 ≤ (i - 6) * (i - 6) :=
        mul_self_le_mul_self (by omega) h1
      omega
    have hii : isInt (i * i) := by
      unfold isInt INT_MIN INT_MAX
      constructor
      · nlinarith
      · have : i * i ≤ 46337 * 46337 := mul_self_le_mul_self (by omega) hub
        omega
    exact ⟨hii, wrapInt_eq hii⟩

/-- C20 at the prime `97` and at the composite `91 = 7 * 13`. -/
theorem isPrime_decides_witness :
    (isInt 97 ∧ (97 : Int) < 2147117569) ∧
    ((isPrime 97 = true ↔ Nat.Prime (97 : Int).toNat) ∧
      ((97 : Int) ≤ 1 → isPrime 97 = false) ∧
      (∀ i : Int, 5 ≤ i → i % 6 = 5 → (i - 6) * (i - 6) ≤ 97 →
        isInt (i * i) ∧ wrapInt (i * i) = i * i)) ∧
    isPrime 97 = true ∧ isPrime 91 = false ∧ isPrime 1 = false ∧ isPrime (-7) = false :=
  ⟨⟨by decide, by decide⟩, isPrime_decides 97 (by decide) (by decide),
    by decide, by decide, by decide, by decide⟩

/-! ## C19: the fallback of `hashMidSquare` -/

/-- Every decimal digit character is accepted by `Char.isDigit`. -/
theorem digitChar_isDigit : ∀ d < 10, (Nat.digitChar d).isDigit = true := by
  decide

/-- The characters of `decDigits` are decimal digits. -/
theorem decDigits_isDigit (len n : Nat) : ∀ ch ∈ decDigits len n, ch.isDigit = true := by
  induction len generalizing n with
  | zero => intro ch h; simp [decDigits] at h
  | succ len ih =>
    intro ch h
    rw [decDigits, List.mem_append] at h
    rcases h with h | h
    · exact ih _ ch h
    · rw [List.mem_singleton] at h
      rw [h]
      exact digitChar_isDigit _ (Nat.mod_lt _ (by omega))

/-- For a padded string of `L` characters, `5 ≤ L ≤ 20`, the `int` computations of
`hashMidSquare` give `start = L / 2 - 1` and `len = 3`. -/
theorem midSquare_start_len (L : Nat) (h5 : 5 ≤ L) (h20 : L ≤ 20) :
    max 0 (wrapInt (wrapInt ((L / 2 : Nat) : Int) - 1)) = ((L / 2 : Nat) : Int) - 1 ∧
    min 3 (wrapInt (wrapInt (L : Int)
      - max 0 (wrapInt (wrapInt ((L / 2 : Nat) : Int) - 1)))) = 3 := by
  have g1 : max 0 (((L / 2 : Nat) : Int) - 1) = ((L / 2 : Nat) : Int) - 1 := by omega
  have g2 : min 3 ((L : Int) - (((L / 2 : Nat) : Int) - 1)) = 3 := by omega
  have i1 : isInt ((L / 2 : Nat) : Int) := by unfold isInt INT_MIN INT_MAX; omega
  have i2 : isInt (((L / 2 : Nat) : Int) - 1) := by unfold isInt INT_MIN INT_MAX; omega
  have i3 : isInt (L : Int) := by unfold isInt INT_MIN INT_MAX; omega
  have i4 : isInt ((L : Int) - (((L / 2 : Nat) : Int) - 1)) := by
    unfold isInt INT_MIN INT_MAX; omega
  rw [wrapInt_eq i1, wrapInt_eq i2, wrapInt_eq i3, g1, wrapInt_eq i4, g2]
  exact ⟨rfl, rfl⟩

/-- C19: in `hashMidSquare` the fallback is unreachable.  For every `int` key the padded
string has length `L ≥ 5`, `start = L / 2 - 1 ≥ 1` and `len = 3`; the substring taken
consists of exactly three decimal digits, its parse succeeds with a value in `[0, 999]`,
and the `try` block returns a value, so `return 0` in the handler is never taken. -/
theorem hashMidSquare_fallback_unreachable (t : HashTable) (key : Int) (hk : isInt key)
    (str : List Char) (start len : Int)
    (hstr : str = padLoop 5 (to_string ((toU64 key * toU64 key) % 18446744073709551616)))
    (hstart : start = max 0 (wrapInt (wrapInt ((str.length / 2 : Nat) : Int) - 1)))
    (hlen : len = min 3 (wrapInt (wrapInt (str.length : Int) - start))) :
    5 ≤ str.length ∧ start = ((str.length / 2 : Nat) : Int) - 1 ∧ 1 ≤ start ∧ len = 3 ∧
    ∃ sub : List Char, substr str (toU64 start) (toU64 len) = some sub ∧ sub.length = 3 ∧
      (∀ ch ∈ sub, ch.isDigit = true) ∧
      ∃ v : Int, stoi sub = some v ∧ 0 ≤ v ∧ v ≤ 999 ∧
        hashMidSquareTry t key = some (Int.tmod v t.m) ∧
        hashMidSquare t key = Int.tmod v t.m := by
  have _ := hk
  generalize hsq : (toU64 key * toU64 key) % 18446744073709551616 = sq at hstr
  have hsqlt : sq < 18446744073709551616 := by
    rw [← hsq]; exact Nat.mod_lt _ (by omega)
  have hlog := log10_lt_20 sq hsqlt
  generalize hL : max 5 (Nat.log 10 sq + 1) = L
  have h5 : 5 ≤ L := by omega
  have h20 : L ≤ 20 := by omega
  have h1 : (1 : Int) ≤ ((L / 2 : Nat) : Int) - 1 := by omega
  have hv0 : (0 : Int) ≤ ((sq / 10 ^ (L - L / 2 - 2) % 1000 : Nat) : Int) := by omega
  have hv1 : ((sq / 10 ^ (L - L / 2 - 2) % 1000 : Nat) : Int) ≤ 999 := by omega
  rw [padLoop_to_string, hL] at hstr
  have hlenL : str.length = L := by rw [hstr, decDigits_length]
  rw [hlenL] at hstart hlen
  obtain ⟨a1, a2⟩ := midSquare_start_len L h5 h20
  have hwin := midSquare_window sq L h5 h20
  have htry := hashMidSquareTry_eq t key sq L hsq.symm hL.symm
  rw [hlenL, hlen, hstart]
  refine ⟨h5, a1, ?_, a2, decDigits 3 (sq / 10 ^ (L - L / 2 - 2)), ?_, decDigits_length _ _,
    decDigits_isDigit _ _, ((sq / 10 ^ (L - L / 2 - 2) % 1000 : Nat) : Int),
    stoi_decDigits_three _, hv0, hv1, htry, ?_⟩
  · rw [a1]; exact h1
  · rw [hstr]; exact hwin
  · unfold hashMidSquare
    rw [htry, Option.getD_some]

/-- C19 at the key `25`: the padded string is `00625`, `start = 1`, `len = 3`. -/
theorem hashMidSquare_fallback_unreachable_witness :
    (isInt 25 ∧
      ['0', '0', '6', '2', '5']
        = padLoop 5 (to_string ((toU64 25 * toU64 25) % 18446744073709551616)) ∧
      (1 : Int) = max 0 (wrapInt (wrapInt
        (((['0', '0', '6', '2', '5'] : List Char).length / 2 : Nat) : Int) - 1)) ∧
      (3 : Int) = min 3 (wrapInt (wrapInt
        ((['0', '0', '6', '2', '5'] : List Char).length : Int) - 1))) ∧
    (5 ≤ (['0', '0', '6', '2', '5'] : List Char).length ∧
      (1 : Int) = (((['0', '0', '6', '2', '5'] : List Char).length / 2 : Nat) : Int) - 1 ∧
      (1 : Int) ≤ 1 ∧ (3 : Int) = 3 ∧
      ∃ sub : List Char, substr ['0', '0', '6', '2', '5'] (toU64 1) (toU64 3) = some sub ∧
        sub.length = 3 ∧ (∀ ch ∈ sub, ch.isDigit = true) ∧
        ∃ v : Int, stoi sub = some v ∧ 0 ≤ v ∧ v ≤ 999 ∧
          hashMidSquareTry sampleTable 25 = some (Int.tmod v sampleTable.m) ∧
          hashMidSquare sampleTable 25 = Int.tmod v sampleTable.m) :=
  ⟨⟨by decide, by decide, by decide, by decide⟩,
    hashMidSquare_fallback_unreachable sampleTable 25 (by decide) ['0', '0', '6', '2', '5'] 1 3
      (by decide) (by decide) (by decide)⟩

/-! ## C18: the overflow error of `findNextPrime` -/

/-- The largest `int`, `2 ^ 31 - 1`, is a prime number (Lucas-Lehmer test). -/
theorem prime_INT_MAX : Nat.Prime INT_MAX.toNat := by
  have h : (mersenne 31).Prime := lucas_lehmer_sufficiency 31 (by norm_num) (by norm_num)
  have e : mersenne 31 = 2147483647 := by norm_num [mersenne]
  have e2 : INT_MAX.toNat = 2147483647 := by decide
  rw [e2, ← e]
  exact h

/-- The loop of `findNextPrime` ends with the overflow error exactly when `isPrime`
rejects every odd candidate from the start up to `INT_MAX - 1`; otherwise it returns a
candidate. -/
theorem findNextPrimeLoop_error_iff :
    ∀ (fuel : Nat) (c : Int), isInt c → c % 2 = 1 → INT_MAX - c < fuel →
      (findNextPrimeLoop fuel c = some (.error .overflow_error) ↔
        ∀ d : Int, c ≤ d → d < INT_MAX → d % 2 = 1 → isPrime d = false) ∧
      (findNextPrimeLoop fuel c = some (.error .overflow_error) ∨
        ∃ r : Int, findNextPrimeLoop fuel c = some (.ok r)) := by
  intro fuel
  induction fuel with
  | zero => intro c hc _ h; unfold isInt INT_MIN INT_MAX at hc; unfold INT_MAX at h; omega
  | succ fuel ih =>
    intro c hc hodd hfuel
    unfold isInt INT_MIN INT_MAX at hc
    unfold INT_MAX at hfuel
    unfold findNextPrimeLoop
    by_cases hlt : c < INT_MAX
    · rw [if_pos hlt]
      by_cases hp : isPrime c = true
      · rw [if_pos hp]
        refine ⟨⟨fun h => ?_, fun h => ?_⟩, Or.inr ⟨c, rfl⟩⟩
        · injection h with h
          injection h
        · have := h c (le_refl c) hlt hodd
          rw [hp] at this
          exact Bool.noConfusion this
      · rw [if_neg hp]
        have hpf : isPrime c = false := by
          cases hb : isPrime c
          · rfl
          · exact absurd hb hp
        unfold INT_MAX at hlt
        have hc2 : isInt (c + 2) := by unfold isInt INT_MIN INT_MAX; omega
        have hodd2 : (c + 2) % 2 = 1 := by omega
        have hfuel2 : INT_MAX - (c + 2) < fuel := by unfold INT_MAX; omega
        rw [wrapInt_eq hc2]
        obtain ⟨h1, h2⟩ := ih (c + 2) hc2 hodd2 hfuel2
        refine ⟨⟨fun h d hd1 hd2 hd3 => ?_, fun h => ?_⟩, h2⟩
        · by_cases hdc : d = c
          · rw [hdc]; exact hpf
          · exact (h1.mp h) d (by omega) hd2 hd3
        · exact h1.mpr (fun d hd1 hd2 hd3 => h d (by omega) hd2 hd3)
    · rw [if_neg hlt]
      refine ⟨⟨fun _ d hd1 hd2 _ => ?_, fun _ => rfl⟩, Or.inl rfl⟩
      omega

/-- The eight odd numbers between the prime `2147483629` and `INT_MAX` are rejected by
`isPrime`. -/
theorem isPrime_top_range (d : Int) (h1 : 2147483630 ≤ d) (h2 : d < INT_MAX)
    (h3 : d % 2 = 1) : isPrime d = false := by
  unfold INT_MAX at h2
  have hcases : d = 2147483631 ∨ d = 2147483633 ∨ d = 2147483635 ∨ d = 2147483637 ∨
      d = 2147483639 ∨ d = 2147483641 ∨ d = 2147483643 ∨ d = 2147483645 := by omega
  rcases hcases with h | h | h | h | h | h | h | h <;> subst h <;> decide!


/-- C18, as stated, fails on the code: `INT_MAX` is a prime at or above `n = INT_MAX` that
is representable, and `findNextPrime INT_MAX` raises the overflow error. -/
theorem findNextPrime_max_prime_throws :
    isInt 2147483647 ∧ Nat.Prime (2147483647 : Int).toNat ∧
    (2147483647 : Int) ≤ 2147483647 ∧ (2147483647 : Int) ≤ INT_MAX ∧
    findNextPrime 2147483647 = .error .overflow_error :=
  ⟨by decide, prime_INT_MAX, by decide, by decide, by rfl⟩

/-- C18 (amended): for every `int` `n`, `findNextPrime n` raises the overflow error
exactly when `n > 1` and `isPrime` rejects every odd candidate `d` with
`n ≤ d < INT_MAX`, and it returns a value in every other case.  In particular it raises
the error for every `n ≥ 2147483630` and returns a value for every `n ≤ 2147117563`.  The
start candidate is an odd `int`, and an odd candidate below `INT_MAX` plus `2` does not
exceed `INT_MAX`, so the candidate never wraps. -/
theorem findNextPrime_overflow_iff (n : Int) (hn : isInt n) :
    (findNextPrime n = .error .overflow_error ↔
      1 < n ∧ ∀ d : Int, n ≤ d → d < INT_MAX → d % 2 = 1 → isPrime d = false) ∧
    (findNextPrime n ≠ .error .overflow_error →
      ∃ r : Int, findNextPrime n = .ok r ∧ n ≤ r ∧ r < INT_MAX) ∧
    (2147483630 ≤ n → findNextPrime n = .error .overflow_error) ∧
    (n ≤ 2147117563 → ∃ r : Int, findNextPrime n = .ok r) ∧
    (1 < n → isInt (if Int.tmod n 2 = 0 then wrapInt (n + 1) else n) ∧
      (if Int.tmod n 2 = 0 then wrapInt (n + 1) else n) % 2 = 1) ∧
    (∀ c : Int, isInt c → c % 2 = 1 → c < INT_MAX →
      wrapInt (c + 2) = c + 2 ∧ c + 2 ≤ INT_MAX) := by
  have hiff : findNextPrime n = .error .overflow_error ↔
      1 < n ∧ ∀ d : Int, n ≤ d → d < INT_MAX → d % 2 = 1 → isPrime d = false := by
    by_cases h1 : n ≤ 1
    · constructor
      · intro h
        unfold findNextPrime at h
        rw [if_pos h1] at h
        injection h
      · intro h
        omega
    · obtain ⟨hc, hodd, hle⟩ := candidate_odd n hn (by omega)
      have hfuel : INT_MAX - (if Int.tmod n 2 = 0 then wrapInt (n + 1) else n)
          < (INT_MAX - (if Int.tmod n 2 = 0 then wrapInt (n + 1) else n)).toNat.succ := by
        unfold isInt INT_MIN INT_MAX at hc
        unfold INT_MAX
        omega
      obtain ⟨hl, hcases⟩ := findNextPrimeLoop_error_iff _ _ hc hodd hfuel
      have hcand : ∀ d : Int, d % 2 = 1 →
          (n ≤ d ↔ (if Int.tmod n 2 = 0 then wrapInt (n + 1) else n) ≤ d) := by
        intro d hd
        unfold isInt INT_MIN INT_MAX at hn
        by_cases hev : Int.tmod n 2 = 0
        · rw [if_pos hev]
          rw [Int.tmod_eq_emod (by omega) (by omega)] at hev
          rw [wrapInt_eq (by unfold isInt INT_MIN INT_MAX; omega)]
          omega
        · rw [if_neg hev]
      unfold findNextPrime
      rw [if_neg h1]
      simp only
      constructor
      · intro h
        refine ⟨by omega, fun d hd1 hd2 hd3 => ?_⟩
        rcases hcases with he | ⟨r, hr⟩
        · exact hl.mp he d ((hcand d hd3).mp hd1) hd2 hd3
        · rw [hr, Option.getD_some] at h
          injection h
      · rintro ⟨_, h⟩
        have he := hl.mpr (fun d hd1 hd2 hd3 => h d ((hcand d hd3).mpr hd1) hd2 hd3)
        rw [he, Option.getD_some]
  refine ⟨hiff, ?_, ?_, ?_, ?_, ?_⟩
  · intro hne
    cases hres : findNextPrime n with
    | error e =>
      exfalso
      apply hne
      by_cases h1 : n ≤ 1
      · unfold findNextPrime at hres
        rw [if_pos h1] at hres
        injection hres
      · obtain ⟨hc, hodd, _⟩ := candidate_odd n hn (by omega)
        have hfuel : INT_MAX - (if Int.tmod n 2 = 0 then wrapInt (n + 1) else n)
            < (INT_MAX - (if Int.tmod n 2 = 0 then wrapInt (n + 1) else n)).toNat.succ := by
          unfold isInt INT_MIN INT_MAX at hc
          unfold INT_MAX
          omega
        obtain ⟨_, hcases⟩ := findNextPrimeLoop_error_iff _ _ hc hodd hfuel
        unfold findNextPrime at hres ⊢
        rw [if_neg h1] at hres ⊢
        simp only at hres ⊢
        rcases hcases with he | ⟨r, hr⟩
        · rw [he, Option.getD_some]
        · rw [hr, Option.getD_some] at hres
          injection hres
    | ok r =>
      obtain ⟨b1, _, b3⟩ := findNextPrime_ok_bounds n r hn hres
      exact ⟨r, rfl, b1, b3⟩
  · intro hbig
    exact hiff.mpr ⟨by omega, fun d hd1 hd2 hd3 => isPrime_top_range d (by omega) hd2 hd3⟩
  · intro hsmall
    by_cases h1 : n ≤ 1
    · exact ⟨2, by unfold findNextPrime; rw [if_pos h1]⟩
    · by_cases h2 : n = 2
      · subst h2
        exact ⟨3, by decide⟩
      · obtain ⟨r, hr, _⟩ :=
          findNextPrime_of_prime_above 2147117563 prime_2147117563 (by omega) n (by omega)
            hsmall
        exact ⟨r, hr⟩
  · intro h1
    obtain ⟨hc, hodd, _⟩ := candidate_odd n hn h1
    exact ⟨hc, hodd⟩
  · intro c hc hodd hlt
    unfold isInt INT_MIN INT_MAX at hc
    unfold INT_MAX at hlt ⊢
    have hc2 : isInt (c + 2) := by unfold isInt INT_MIN INT_MAX; omega
    exact ⟨wrapInt_eq hc2, by omega⟩

/-- C18 (amended) at `n = 2147483640`, where the error is raised, with `n = 100`, where a
value is returned. -/
theorem findNextPrime_overflow_iff_witness :
    isInt 2147483640 ∧ findNextPrime 2147483640 = .error .overflow_error ∧
    (findNextPrime 2147483640 = .error .overflow_error ↔
      (1 : Int) < 2147483640 ∧
        ∀ d : Int, 2147483640 ≤ d → d < INT_MAX → d % 2 = 1 → isPrime d = false) ∧
    isInt 100 ∧ findNextPrime 100 = .ok 101 ∧
    (findNextPrime 100 ≠ .error .overflow_error →
      ∃ r : Int, findNextPrime 100 = .ok r ∧ 100 ≤ r ∧ r < INT_MAX) :=
  ⟨by decide, (findNextPrime_overflow_iff 2147483640 (by decide)).2.2.1 (by decide),
    (findNextPrime_overflow_iff 2147483640 (by decide)).1,
    by decide, by decide, (findNextPrime_overflow_iff 100 (by decide)).2.1⟩

/-! ## Construction: auxiliary facts -/

/-- The conversion of an `int` size to `size_t`: a size below zero lands above
`max_size()`, a size of at least zero is kept. -/
theorem toU64_size (size : Int) (hs : isInt size) :
    (size < 0 → toU64 size > vector_max_size) ∧
    (0 ≤ size → toU64 size = size.toNat ∧ ¬ toU64 size > vector_max_size) := by
  unfold isInt INT_MIN INT_MAX at hs
  unfold toU64 vector_max_size
  constructor
  · intro h
    omega
  · intro h
    rw [Int.emod_eq_of_lt h (by omega)]
    exact ⟨rfl, by omega⟩

/-- For a size below zero the constructor throws `std::length_error`; for the size zero
it throws `std::invalid_argument`. -/
theorem construct_nonpositive (size : Int) (hs : isInt size)
    (draw : Nat → Int → Int → Int) :
    (size < 0 → construct size draw = .error .length_error) ∧
    (size = 0 → construct size draw = .error .invalid_argument) := by
  obtain ⟨h1, h2⟩ := toU64_size size hs
  constructor
  · intro h
    unfold construct
    rw [if_pos (h1 h)]
  · intro h
    unfold construct
    rw [if_neg (h2 (by omega)).2, if_pos (by omega)]

/-- For a size above zero for which `findNextPrime` returns `p`, the constructor yields a
table with `m = size`, exactly `m` empty buckets, the prime `p ≥ m`, `A = 0.6180339887`,
`b` in `[1, p-1]` and `c` in `[0, p-1]`. -/
theorem construct_positive (size : Int) (hs : isInt size) (hpos : 0 < size)
    (draw : Nat → Int → Int → Int) (hdraw : drawsInRange draw) (p : Int)
    (hp : findNextPrime size = .ok p) :
    ∃ t : HashTable, construct size draw = .ok t ∧ t.m = size ∧
      t.table = List.replicate size.toNat [] ∧ t.p = p ∧ size ≤ p ∧ t.A = goldenA ∧
      (1 ≤ t.b ∧ t.b ≤ p - 1) ∧ (0 ≤ t.c ∧ t.c ≤ p - 1) := by
  obtain ⟨_, h2⟩ := toU64_size size hs
  obtain ⟨e1, e2⟩ := h2 (by omega)
  obtain ⟨b1, b2, b3⟩ := findNextPrime_ok_bounds size p hs hp
  have hp1 : isInt (p - 1) := by
    unfold isInt INT_MIN INT_MAX
    unfold INT_MAX at b3
    omega
  unfold construct
  rw [if_neg e2, if_neg (by omega), hp, e1]
  simp only [Except.bind, wrapInt_eq hp1]
  exact ⟨_, rfl, rfl, rfl, rfl, b1, rfl, hdraw 0 1 (p - 1) (by omega),
    hdraw 1 0 (p - 1) (by omega)⟩

/-! ## C14: the constructor -/

/-- C14 fails on the code for a size below zero: the member initialiser `table(size)`
runs before the check `size <= 0` of the body, so the constructor called with `-1` throws
`std::length_error`, not `std::invalid_argument`, whatever the random numbers are.  The
size `0` does give `std::invalid_argument`. -/
theorem construct_negative_size :
    (∀ draw : Nat → Int → Int → Int, construct (-1) draw = .error .length_error) ∧
    (∀ draw : Nat → Int → Int → Int, construct 0 draw = .error .invalid_argument) ∧
    isInt (-1) ∧ toU64 (-1) = 18446744073709551615 := by
  refine ⟨fun draw => ?_, fun draw => ?_, by decide, by decide⟩
  · exact (construct_nonpositive (-1) (by decide) draw).1 (by decide)
  · exact (construct_nonpositive 0 (by decide) draw).2 rfl

/-! ## Strategies and parameters -/

/-- Each of the four hash functions reads `m`, `p`, `A`, `b` and `c` only. -/
theorem strategies_readParameters :
    readsParameters hashDivision ∧ readsParameters hashMultiplication ∧
    readsParameters hashMidSquare ∧ readsParameters hashUniversal := by
  refine ⟨?_, ?_, ?_, ?_⟩
  · rintro t u key ⟨h1, _, _, _, _⟩
    unfold hashDivision
    rw [h1]
  · rintro t u key ⟨h1, _, h3, _, _⟩
    unfold hashMultiplication
    rw [h1, h3]
  · rintro t u key ⟨h1, _, _, _, _⟩
    unfold hashMidSquare hashMidSquareTry
    rw [h1]
  · rintro t u key ⟨h1, h2, _, h4, h5⟩
    unfold hashUniversal
    rw [h1, h2, h4, h5]

/-- A call changes none of `m`, `p`, `A`, `b`, `c`. -/
theorem step_sameParameters (h : HashTable → Int → Int) (t : HashTable) (call : Call) :
    sameParameters (step h t call) t := by
  cases call with
  | add key =>
    unfold step addElement
    simp only
    split <;> exact ⟨rfl, rfl, rfl, rfl, rfl⟩
  | remove key =>
    unfold step removeElement
    simp only
    split
    · exact ⟨rfl, rfl, rfl, rfl, rfl⟩
    · split <;> exact ⟨rfl, rfl, rfl, rfl, rfl⟩
  | clear => exact ⟨rfl, rfl, rfl, rfl, rfl⟩

/-- A table built by the constructor has `m = size > 0` and `m` empty buckets. -/
theorem construct_ok_fresh (size : Int) (hs : isInt size) (draw : Nat → Int → Int → Int)
    (t : HashTable) (hc : construct size draw = .ok t) :
    0 < size ∧ t.m = size ∧ t.table = List.replicate size.toNat [] := by
  obtain ⟨_, h2⟩ := toU64_size size hs
  unfold construct at hc
  by_cases h1 : toU64 size > vector_max_size
  · rw [if_pos h1] at hc
    injection hc
  · rw [if_neg h1] at hc
    by_cases h0 : size ≤ 0
    · rw [if_pos h0] at hc
      injection hc
    · rw [if_neg h0] at hc
      cases hp : findNextPrime size with
      | error e =>
        rw [hp] at hc
        simp only [Except.bind] at hc
        injection hc
      | ok p =>
        rw [hp] at hc
        simp only [Except.bind] at hc
        injection hc with hc
        rw [← hc, (h2 (by omega)).1]
        exact ⟨by omega, rfl, rfl⟩

/-! ## The bucket-consistency invariant -/

/-- A table whose buckets are all empty is consistent. -/
theorem consistent_of_empty (h : HashTable → Int → Int) (t : HashTable)
    (ht : t.table = List.replicate t.m.toNat []) : consistent h t := by
  constructor
  · rw [ht, List.length_replicate]
  · intro i bucket hb key hk
    rw [ht, List.getElem?_replicate] at hb
    split at hb
    · injection hb with hb
      rw [← hb] at hk
      simp at hk
    · exact Option.noConfusion hb

/-- Every call keeps the invariant, whether it succeeds or fails. -/
theorem consistent_step (h : HashTable → Int → Int) (hfix : readsParameters h)
    (t : HashTable) (hc : consistent h t) (call : Call) : consistent h (step h t call) := by
  obtain ⟨hlen, hkeys⟩ := hc
  have hsame := step_sameParameters h t call
  have hh : ∀ key, h (step h t call) key = h t key := fun key => hfix _ _ key hsame
  cases call with
  | add key =>
    unfold step addElement at hh ⊢
    simp only at hh ⊢
    by_cases hr : h t key < 0 ∨ h t key ≥ t.m
    · simp only [if_pos hr] at hh ⊢
      exact ⟨hlen, hkeys⟩
    · simp only [if_neg hr] at hh ⊢
      constructor
      · show (List.modify _ _ t.table).length = t.m.toNat
        rw [List.length_modify]
        exact hlen
      · intro i bucket hb k hk
        rw [hh k]
        change (List.modify _ _ t.table)[i]? = some bucket at hb
        rw [List.getElem?_modify] at hb
        cases hti : t.table[i]? with
        | none =>
          rw [hti] at hb
          exact Option.noConfusion hb
        | some old =>
          rw [hti] at hb
          simp only [Option.map_eq_map, Option.map_some'] at hb
          injection hb with hb
          by_cases hi : (h t key).toNat = i
          · rw [if_pos hi] at hb
            rw [← hb, List.mem_append, List.mem_singleton] at hk
            rcases hk with hk | hk
            · exact hkeys i old hti k hk
            · rw [hk]
              omega
          · rw [if_neg hi] at hb
            rw [← hb] at hk
            exact hkeys i old hti k hk
  | remove key =>
    unfold step removeElement at hh ⊢
    simp only at hh ⊢
    by_cases hr : h t key < 0 ∨ h t key ≥ t.m
    · simp only [if_pos hr] at hh ⊢
      exact ⟨hlen, hkeys⟩
    · simp only [if_neg hr] at hh ⊢
      by_cases hf : find (t.table.getD (h t key).toNat []) key
          ≠ (t.table.getD (h t key).toNat []).length
      · simp only [if_pos hf] at hh ⊢
        constructor
        · show (t.table.set _ _).length = t.m.toNat
          rw [List.length_set]
          exact hlen
        · intro i bucket hb k hk
          rw [hh k]
          change (t.table.set _ _)[i]? = some bucket at hb
          rw [List.getElem?_set] at hb
          by_cases hi : (h t key).toNat = i
          · rw [if_pos hi] at hb
            have hidx : (h t key).toNat < t.table.length := by omega
            rw [if_pos hidx] at hb
            injection hb with hb
            rw [← hb] at hk
            have hk2 := List.mem_of_mem_eraseIdx hk
            rw [List.getD_eq_getElem?_getD, List.getElem?_eq_getElem hidx] at hk2
            have := hkeys (h t key).toNat _ (List.getElem?_eq_getElem hidx) k hk2
            rw [this]
            omega
          · rw [if_neg hi] at hb
            exact hkeys i bucket hb k hk
      · simp only [if_neg hf] at hh ⊢
        exact ⟨hlen, hkeys⟩
  | clear =>
    constructor
    · show (t.table.map _).length = t.m.toNat
      rw [List.length_map]
      exact hlen
    · intro i bucket hb k hk
      change (t.table.map _)[i]? = some bucket at hb
      rw [List.getElem?_map] at hb
      cases hti : t.table[i]? with
      | none =>
        rw [hti] at hb
        exact Option.noConfusion hb
      | some old =>
        rw [hti] at hb
        simp only [Option.map_some'] at hb
        injection hb with hb
        rw [← hb] at hk
        simp at hk

/-- Every sequence of calls keeps the invariant and the parameters. -/
theorem consistent_run (h : HashTable → Int → Int) (hfix : readsParameters h)
    (calls : List Call) :
    ∀ t : HashTable, consistent h t →
      consistent h (run h t calls) ∧ sameParameters (run h t calls) t := by
  induction calls with
  | nil => intro t hc; exact ⟨hc, rfl, rfl, rfl, rfl, rfl⟩
  | cons call rest ih =>
    intro t hc
    obtain ⟨h1, h2⟩ := ih (step h t call) (consistent_step h hfix t hc call)
    obtain ⟨s1, s2, s3, s4, s5⟩ := step_sameParameters h t call
    obtain ⟨r1, r2, r3, r4, r5⟩ := h2
    exact ⟨h1, r1.trans s1, r2.trans s2, r3.trans s3, r4.trans s4, r5.trans s5⟩

/-! ## C15: bucket consistency -/

/-- C15: for every strategy `h` that reads the parameters only (as the four hash
functions do) and every table built by the constructor with an `int` size, in the state
reached by any finite sequence of `addElement`, `removeElement` and `clear` calls made
with `h`, failed calls included, the table has exactly `m = size > 0` buckets and every
key stored in bucket `i` satisfies `h(key) = i`. -/
theorem consistent_reachable (h : HashTable → Int → Int) (hfix : readsParameters h)
    (size : Int) (hs : isInt size) (draw : Nat → Int → Int → Int) (t0 : HashTable)
    (hc : construct size draw = .ok t0) (calls : List Call) :
    0 < size ∧ (run h t0 calls).m = size ∧
    (run h t0 calls).table.length = size.toNat ∧
    ∀ (i : Nat) (bucket : List Int), (run h t0 calls).table[i]? = some bucket →
      ∀ key ∈ bucket, h (run h t0 calls) key = (i : Int) := by
  obtain ⟨hpos, hm, htab⟩ := construct_ok_fresh size hs draw t0 hc
  have hfresh : consistent h t0 := consistent_of_empty h t0 (by rw [hm]; exact htab)
  obtain ⟨⟨c1, c2⟩, s1, _⟩ := consistent_run h hfix calls t0 hfresh
  refine ⟨hpos, s1.trans hm, ?_, c2⟩
  rw [c1, s1, hm]

/-- C15 at the table of size `3` and a sequence of calls made with multiplication
hashing, among them an `addElement` that fails (the key `-1` has the index `-1`) and a
`removeElement` that fails (the key `8` is not stored). -/
theorem consistent_reachable_witness :
    readsParameters hashMultiplication ∧ isInt 3 ∧
    construct 3 (fun _ lo _ => lo) = .ok ⟨3, 3, goldenA, 1, 0, [[], [], []]⟩ ∧
    (addElement ⟨3, 3, goldenA, 1, 0, [[], [], []]⟩ (-1) hashMultiplication).1 = .error .out_of_range ∧
    (run hashMultiplication ⟨3, 3, goldenA, 1, 0, [[], [], []]⟩
      [.add 7, .add 4, .add (-1), .add 5, .remove 7, .remove 8, .add 3]).table
        = [[5], [4], [3]] ∧
    ((0 : Int) < 3 ∧
      (run hashMultiplication ⟨3, 3, goldenA, 1, 0, [[], [], []]⟩
        [.add 7, .add 4, .add (-1), .add 5, .remove 7, .remove 8, .add 3]).m = 3 ∧
      (run hashMultiplication ⟨3, 3, goldenA, 1, 0, [[], [], []]⟩
        [.add 7, .add 4, .add (-1), .add 5, .remove 7, .remove 8, .add 3]).table.length
          = (3 : Int).toNat ∧
      ∀ (i : Nat) (bucket : List Int),
        (run hashMultiplication ⟨3, 3, goldenA, 1, 0, [[], [], []]⟩
          [.add 7, .add 4, .add (-1), .add 5, .remove 7, .remove 8, .add 3]).table[i]?
            = some bucket →
        ∀ key ∈ bucket,
          hashMultiplication (run hashMultiplication ⟨3, 3, goldenA, 1, 0, [[], [], []]⟩
            [.add 7, .add 4, .add (-1), .add 5, .remove 7, .remove 8, .add 3]) key
              = (i : Int)) :=
  ⟨strategies_readParameters.2.1, by decide, by decide, by decide, by decide!,
    consistent_reachable hashMultiplication strategies_readParameters.2.1 3 (by decide)
      (fun _ lo _ => lo) ⟨3, 3, goldenA, 1, 0, [[], [], []]⟩ (by decide)
      [.add 7, .add 4, .add (-1), .add 5, .remove 7, .remove 8, .add 3]⟩

/-! ## Tables as functions of the inserted keys -/

theorem getElem?_bucketsOf (index : Int → Int) (count : Nat) (keys : List Int) (i : Nat) :
    (bucketsOf index count keys)[i]?
      = if i < count then some (keys.filter fun key => index key = (i : Int)) else none := by
  unfold bucketsOf
  rw [List.getElem?_map]
  by_cases hi : i < count
  · rw [if_pos hi, List.getElem?_range hi]
    rfl
  · rw [if_neg hi, List.getElem?_eq_none (by simp; omega)]
    rfl

theorem length_bucketsOf (index : Int → Int) (count : Nat) (keys : List Int) :
    (bucketsOf index count keys).length = count := by
  unfold bucketsOf
  simp

/-- Without keys all buckets are empty. -/
theorem bucketsOf_nil (index : Int → Int) (count : Nat) :
    bucketsOf index count [] = List.replicate count [] := by
  apply List.ext_getElem?
  intro i
  rw [getElem?_bucketsOf, List.getElem?_replicate]
  rfl

/-- Appending `key` to the bucket `index key` gives the buckets of the extended list. -/
theorem modify_bucketsOf (index : Int → Int) (count : Nat) (keys : List Int) (key : Int)
    (h0 : 0 ≤ index key) :
    List.modify (fun bucket => bucket ++ [key]) (index key).toNat
        (bucketsOf index count keys)
      = bucketsOf index count (keys ++ [key]) := by
  apply List.ext_getElem?
  intro i
  rw [List.getElem?_modify, getElem?_bucketsOf, getElem?_bucketsOf]
  by_cases hi : i < count
  · rw [if_pos hi, if_pos hi]
    simp only [Option.map_eq_map, Option.map_some', List.filter_append]
    by_cases hk : (index key).toNat = i
    · have hk2 : index key = (i : Int) := by omega
      rw [if_pos hk]
      simp [List.filter_cons, hk2]
    · have hk2 : ¬ index key = (i : Int) := by omega
      rw [if_neg hk]
      simp [List.filter_cons, hk2]
  · rw [if_neg hi, if_neg hi]
    rfl

/-- Deleting the head of the bucket `index key` gives the buckets of the remaining
list. -/
theorem set_bucketsOf (index : Int → Int) (count : Nat) (rest : List Int) (key : Int)
    (h0 : 0 ≤ index key) :
    (bucketsOf index count (key :: rest)).set (index key).toNat
        (rest.filter fun k => index k = index key)
      = bucketsOf index count rest := by
  apply List.ext_getElem?
  intro i
  rw [List.getElem?_set, length_bucketsOf, getElem?_bucketsOf, getElem?_bucketsOf]
  by_cases hk : (index key).toNat = i
  · have hk2 : index key = (i : Int) := by omega
    rw [if_pos hk]
    by_cases hi : i < count
    · rw [if_pos (by omega), if_pos hi, hk2]
    · rw [if_neg (by omega), if_neg hi]
  · have hk2 : ¬ index key = (i : Int) := by omega
    rw [if_neg hk]
    by_cases hi : i < count
    · rw [if_pos hi, if_pos hi]
      simp [List.filter_cons, hk2]
    · rw [if_neg hi, if_neg hi]

/-- On a table that holds the keys `keys`, `addElement` with an index in range succeeds
and the table then holds `keys ++ [key]`. -/
theorem addElement_bucketsOf (h : HashTable → Int → Int) (index : Int → Int)
    (t : HashTable) (count : Nat) (keys : List Int) (key : Int)
    (hidx : h t key = index key) (htab : t.table = bucketsOf index count keys)
    (hr : 0 ≤ index key ∧ index key < t.m) :
    addElement t key h
      = (.ok (), { t with table := bucketsOf index count (keys ++ [key]) }) := by
  unfold addElement
  simp only [hidx]
  rw [if_neg (by omega), htab, modify_bucketsOf index _ keys key hr.1]

/-- On a table that holds the keys `key :: rest`, `removeElement key` with an index in
range returns `true` and the table then holds `rest`. -/
theorem removeElement_bucketsOf (h : HashTable → Int → Int) (index : Int → Int)
    (t : HashTable) (count : Nat) (rest : List Int) (key : Int)
    (hidx : h t key = index key) (hcount : t.m.toNat = count)
    (htab : t.table = bucketsOf index count (key :: rest))
    (hr : 0 ≤ index key ∧ index key < t.m) :
    removeElement t key h = (true, { t with table := bucketsOf index count rest }) := by
  have hlt : (index key).toNat < count := by omega
  have hcast : (((index key).toNat : Nat) : Int) = index key := by omega
  have hbucket : t.table.getD (index key).toNat []
      = key :: rest.filter fun k => index k = index key := by
    rw [List.getD_eq_getElem?_getD, htab, getElem?_bucketsOf, if_pos hlt, hcast]
    simp [List.filter_cons]
  unfold removeElement
  simp only [hidx]
  rw [if_neg (by omega), hbucket]
  have hfind : find (key :: rest.filter fun k => index k = index key) key = 0 := by
    simp [find]
  rw [hfind, if_pos (by simp), List.eraseIdx_cons_zero, htab,
    set_bucketsOf index _ rest key hr.1]

/-! ## The two passes of the benchmark -/

/-- Inserting `data` into a table that holds `keys`, with indices in range, succeeds and
gives the table that holds `keys ++ data`. -/
theorem insertPass_bucketsOf (h : HashTable → Int → Int) (hfix : readsParameters h)
    (t0 : HashTable) :
    ∀ (data keys : List Int) (t : HashTable), sameParameters t t0 →
      t.table = bucketsOf (h t0) t0.m.toNat keys →
      (∀ k ∈ data, 0 ≤ h t0 k ∧ h t0 k < t0.m) →
      insertPass h t data
        = (.ok (), { t with table := bucketsOf (h t0) t0.m.toNat (keys ++ data) }) := by
  intro data
  induction data with
  | nil =>
    intro keys t _ htab _
    unfold insertPass
    rw [List.append_nil, ← htab]
  | cons val rest ih =>
    intro keys t hsame htab hr
    have hm : t.m = t0.m := hsame.1
    have hidx : h t val = h t0 val := hfix t t0 val hsame
    have hv := hr val (List.mem_cons_self val rest)
    have hadd := addElement_bucketsOf h (h t0) t t0.m.toNat keys val hidx htab
      (by rw [hm]; exact hv)
    unfold insertPass
    rw [hadd]
    simp only [if_true]
    rw [ih (keys ++ [val]) { t with table := bucketsOf (h t0) t0.m.toNat (keys ++ [val]) }
      ⟨hsame.1, hsame.2.1, hsame.2.2.1, hsame.2.2.2.1, hsame.2.2.2.2⟩
      rfl (fun k hk => hr k (List.mem_cons_of_mem val hk))]
    simp

/-- Removing `data`, in order, from the table that holds exactly `data`, with indices in
range: every call returns `true` and the table is left without keys. -/
theorem removePass_bucketsOf (h : HashTable → Int → Int) (hfix : readsParameters h)
    (t0 : HashTable) :
    ∀ (data : List Int) (t : HashTable), sameParameters t t0 →
      t.table = bucketsOf (h t0) t0.m.toNat data →
      (∀ k ∈ data, 0 ≤ h t0 k ∧ h t0 k < t0.m) →
      removePass h t data
        = (List.replicate data.length true,
            { t with table := bucketsOf (h t0) t0.m.toNat [] }) := by
  intro data
  induction data with
  | nil =>
    intro t _ htab _
    unfold removePass
    rw [← htab]
    rfl
  | cons val rest ih =>
    intro t hsame htab hr
    have hm : t.m = t0.m := hsame.1
    have hidx : h t val = h t0 val := hfix t t0 val hsame
    have hv := hr val (List.mem_cons_self val rest)
    have hrem := removeElement_bucketsOf h (h t0) t t0.m.toNat rest val hidx (by rw [hm])
      htab (by rw [hm]; exact hv)
    unfold removePass
    rw [hrem]
    simp only
    rw [ih { t with table := bucketsOf (h t0) t0.m.toNat rest }
      ⟨hsame.1, hsame.2.1, hsame.2.2.1, hsame.2.2.2.1, hsame.2.2.2.2⟩
      rfl (fun k hk => hr k (List.mem_cons_of_mem val hk))]
    rfl

/-! ## C17: the benchmark pass drains the table -/

/-- C17: for every capacity `m > 0`, every dataset and every strategy `h` that reads the
parameters only with `h(k)` in `[0, m)` for each key `k` of the dataset: inserting all
keys in order into a table with `m` empty buckets succeeds, and removing all keys in the
same order with the same `h` makes every `removeElement` call return `true` and leaves
every one of the `m` buckets empty. -/
theorem benchmark_pass_drains (h : HashTable → Int → Int) (hfix : readsParameters h)
    (t0 : HashTable) (hm : 0 < t0.m) (hfresh : t0.table = List.replicate t0.m.toNat [])
    (data : List Int) (hr : ∀ k ∈ data, 0 ≤ h t0 k ∧ h t0 k < t0.m) :
    (insertPass h t0 data).1 = .ok () ∧
    (removePass h (insertPass h t0 data).2 data).1 = List.replicate data.length true ∧
    (removePass h (insertPass h t0 data).2 data).2.table.length = t0.m.toNat ∧
    (∀ bucket ∈ (removePass h (insertPass h t0 data).2 data).2.table, bucket = []) ∧
    (removePass h (insertPass h t0 data).2 data).2 = t0 := by
  have _ := hm
  have hins := insertPass_bucketsOf h hfix t0 data [] t0 ⟨rfl, rfl, rfl, rfl, rfl⟩
    (by rw [bucketsOf_nil]; exact hfresh) hr
  rw [List.nil_append] at hins
  have hrem := removePass_bucketsOf h hfix t0 data
    { t0 with table := bucketsOf (h t0) t0.m.toNat data } ⟨rfl, rfl, rfl, rfl, rfl⟩ rfl hr
  rw [hins, hrem]
  simp only [bucketsOf_nil]
  refine ⟨trivial, trivial, List.length_replicate _ _, ?_, ?_⟩
  · intro bucket hb
    exact List.eq_of_mem_replicate hb
  · rw [← hfresh]

/-- C17 at the table with nine buckets, division hashing and the dataset
`[0, 9, 18, 4, 9]`, which has a duplicate. -/
theorem benchmark_pass_drains_witness :
    (readsParameters hashDivision ∧ (0 : Int) < 9 ∧
      (∀ k ∈ ([0, 9, 18, 4, 9] : List Int),
        0 ≤ hashDivision ⟨9, 11, goldenA, 1, 0, List.replicate 9 []⟩ k ∧
        hashDivision ⟨9, 11, goldenA, 1, 0, List.replicate 9 []⟩ k < 9)) ∧
    (insertPass hashDivision ⟨9, 11, goldenA, 1, 0, List.replicate 9 []⟩
      [0, 9, 18, 4, 9]).2.table = [[0, 9, 18, 9], [], [], [], [4], [], [], [], []] ∧
    ((insertPass hashDivision ⟨9, 11, goldenA, 1, 0, List.replicate 9 []⟩
        [0, 9, 18, 4, 9]).1 = .ok () ∧
      (removePass hashDivision
        (insertPass hashDivision ⟨9, 11, goldenA, 1, 0, List.replicate 9 []⟩
          [0, 9, 18, 4, 9]).2 [0, 9, 18, 4, 9]).1
        = List.replicate ([0, 9, 18, 4, 9] : List Int).length true ∧
      (removePass hashDivision
        (insertPass hashDivision ⟨9, 11, goldenA, 1, 0, List.replicate 9 []⟩
          [0, 9, 18, 4, 9]).2 [0, 9, 18, 4, 9]).2.table.length = (9 : Int).toNat ∧
      (∀ bucket ∈ (removePass hashDivision
        (insertPass hashDivision ⟨9, 11, goldenA, 1, 0, List.replicate 9 []⟩
          [0, 9, 18, 4, 9]).2 [0, 9, 18, 4, 9]).2.table, bucket = []) ∧
      (removePass hashDivision
        (insertPass hashDivision ⟨9, 11, goldenA, 1, 0, List.replicate 9 []⟩
          [0, 9, 18, 4, 9]).2 [0, 9, 18, 4, 9]).2
        = ⟨9, 11, goldenA, 1, 0, List.replicate 9 []⟩) :=
  ⟨⟨strategies_readParameters.1, by decide, by decide⟩, by decide,
    benchmark_pass_drains hashDivision strategies_readParameters.1
      ⟨9, 11, goldenA, 1, 0, List.replicate 9 []⟩ (by decide) (by decide)
      [0, 9, 18, 4, 9] (by decide)⟩

/-! ## Insert-then-remove round trip -/

/-- On a table with `m > 0` empty buckets, `addElement` followed by `removeElement` of the
same key with the same strategy succeeds, returns `true` and restores the table, whenever
the strategy reads the parameters only and its index for the key is in `[0, m)`. -/
theorem roundTrip_in_range (h : HashTable → Int → Int) (hfix : readsParameters h)
    (t0 : HashTable) (hfresh : t0.table = List.replicate t0.m.toNat []) (key : Int)
    (hr : 0 ≤ h t0 key ∧ h t0 key < t0.m) :
    (addElement t0 key h).1 = .ok () ∧
    removeElement (addElement t0 key h).2 key h = (true, t0) := by
  have hadd := addElement_bucketsOf h (h t0) t0 t0.m.toNat [] key rfl
    (by rw [bucketsOf_nil]; exact hfresh) hr
  rw [List.nil_append] at hadd
  have hrem := removeElement_bucketsOf h (h t0)
    { t0 with table := bucketsOf (h t0) t0.m.toNat [key] } t0.m.toNat [] key
    (hfix _ t0 key ⟨rfl, rfl, rfl, rfl, rfl⟩) rfl rfl hr
  rw [hadd, hrem, bucketsOf_nil, ← hfresh]
  exact ⟨rfl, rfl⟩

/-- The round trip holds for mid-square hashing with every key, for division hashing
with a capacity of at most `2 ^ 30`, for universal hashing with `int` keys and parameters
in range, and for multiplication hashing with keys `≥ 0`. -/
theorem roundTrip_strategies (t0 : HashTable) (hm : 0 < t0.m)
    (hfresh : t0.table = List.replicate t0.m.toNat []) (key : Int) :
    ((addElement t0 key hashMidSquare).1 = .ok () ∧
      removeElement (addElement t0 key hashMidSquare).2 key hashMidSquare = (true, t0)) ∧
    (t0.m ≤ 1073741824 →
      (addElement t0 key hashDivision).1 = .ok () ∧
      removeElement (addElement t0 key hashDivision).2 key hashDivision = (true, t0)) ∧
    (isInt key → t0.m ≤ t0.p → isInt t0.p → 1 ≤ t0.b ∧ t0.b ≤ t0.p - 1 →
      0 ≤ t0.c ∧ t0.c ≤ t0.p - 1 →
      (addElement t0 key hashUniversal).1 = .ok () ∧
      removeElement (addElement t0 key hashUniversal).2 key hashUniversal = (true, t0)) ∧
    (0 ≤ key → 0 ≤ t0.A.mant →
      (addElement t0 key hashMultiplication).1 = .ok () ∧
      removeElement (addElement t0 key hashMultiplication).2 key hashMultiplication
        = (true, t0)) := by
  obtain ⟨r1, r2, r3, r4⟩ := strategies_readParameters
  refine ⟨?_, ?_, ?_, ?_⟩
  · apply roundTrip_in_range hashMidSquare r3 t0 hfresh key
    unfold hashMidSquare
    rw [hashMidSquareTry_eq t0 key _ _ rfl rfl, Option.getD_some]
    exact ⟨Int.tmod_nonneg _ (by omega), Int.tmod_lt_of_pos _ hm⟩
  · intro hB
    apply roundTrip_in_range hashDivision r1 t0 hfresh key
    obtain ⟨a1, a2, _⟩ := hashDivision_range t0 key hm hB
    exact ⟨a1, a2⟩
  · intro hk hmp hp hb hc
    apply roundTrip_in_range hashUniversal r4 t0 hfresh key
    rw [hashUniversal_eq t0 key hk hm hmp hp hb hc]
    exact ⟨Int.emod_nonneg _ (by omega), Int.emod_lt_of_pos _ hm⟩
  · intro hk hA
    apply roundTrip_in_range hashMultiplication r2 t0 hfresh key
    exact (hashMultiplication_sign t0 key hm hA).1 hk

/-! ## C12: insert-then-remove -/

/-- C12 fails on the code for multiplication hashing with a negative key: on the table
built with size `10`, `addElement(-1)` throws `out_of_range` (the index is `-6`) and the
following `removeElement(-1)` returns `false`. -/
theorem roundTrip_multiplication_negative_key :
    construct 10 (fun _ lo _ => lo) = .ok ⟨10, 11, goldenA, 1, 0, List.replicate 10 []⟩ ∧
    hashMultiplication ⟨10, 11, goldenA, 1, 0, List.replicate 10 []⟩ (-1) = -6 ∧
    addElement ⟨10, 11, goldenA, 1, 0, List.replicate 10 []⟩ (-1) hashMultiplication
      = (.error .out_of_range, ⟨10, 11, goldenA, 1, 0, List.replicate 10 []⟩) ∧
    (removeElement
      (addElement ⟨10, 11, goldenA, 1, 0, List.replicate 10 []⟩ (-1) hashMultiplication).2
      (-1) hashMultiplication).1 = false := by
  decide

/-! ## Division hashing of a dataset -/

/-- For a capacity `0 < m ≤ 2 ^ 30`, inserting `keys` in order with division hashing into
a table with `m` empty buckets succeeds, and bucket `i` then holds exactly the keys whose
Euclidean remainder modulo `m` is `i`, in insertion order; `b` and `c` play no part. -/
theorem insertPass_division (t0 : HashTable) (hm : 0 < t0.m) (hB : t0.m ≤ 1073741824)
    (hfresh : t0.table = List.replicate t0.m.toNat []) (keys : List Int) :
    (insertPass hashDivision t0 keys).1 = .ok () ∧
    (insertPass hashDivision t0 keys).2.table.length = t0.m.toNat ∧
    ∀ i : Nat, i < t0.m.toNat →
      (insertPass hashDivision t0 keys).2.table[i]?
        = some (keys.filter fun key => key % t0.m = (i : Int)) := by
  have hins := insertPass_bucketsOf hashDivision strategies_readParameters.1 t0 keys [] t0
    ⟨rfl, rfl, rfl, rfl, rfl⟩ (by rw [bucketsOf_nil]; exact hfresh)
    (fun k _ => by
      obtain ⟨a1, a2, _⟩ := hashDivision_range t0 k hm hB
      exact ⟨a1, a2⟩)
  rw [List.nil_append] at hins
  rw [hins]
  refine ⟨rfl, length_bucketsOf _ _ _, ?_⟩
  intro i hi
  show (bucketsOf (hashDivision t0) t0.m.toNat keys)[i]? = _
  rw [getElem?_bucketsOf, if_pos hi]
  congr 2
  funext key
  rw [hashDivision_eq_emod t0 key hm hB]

/-! ## C16: division hashing of a dataset -/

/-- C16 fails on the code for capacities above `2 ^ 30`: with `m = 1073741825` the key
`1073741824`, whose Euclidean remainder is `1073741824`, gets the index `-1073741822`,
and the insertion throws `out_of_range`.  With `m = 9` the keys `[0, 9, 18]` all land in
bucket `0`. -/
theorem insertPass_division_overflow :
    (insertPass hashDivision
      ⟨1073741825, 1073741827, goldenA, 1, 0, List.replicate 1073741825 []⟩
      [1073741824]).1 = .error .out_of_range ∧
    hashDivision ⟨1073741825, 1073741827, goldenA, 1, 0, List.replicate 1073741825 []⟩
      1073741824 = -1073741822 ∧
    (1073741824 : Int) % 1073741825 = 1073741824 ∧
    (insertPass hashDivision ⟨9, 11, goldenA, 1, 0, List.replicate 9 []⟩ [0, 9, 18]).2.table
      = [[0, 9, 18], [], [], [], [], [], [], [], []] := by
  decide

end HashTable
